import Mathlib

/-!
# Verification of the `SortedMap` AVL-style ordered map (src/itmod/collections/SortedMap.ts)

A shallow embedding of the `SortedMap` class and its `Node` structure.  A TS
variable of type `Node | undefined` is embedded as the inductive `Tree`, whose
`nil` constructor plays `undefined`.  Every node carries the three cached
fields of the source (`depth`, `nodeCount`, `balanceFactor`, here `d`, `c`,
`b`, all `Int` since JS numbers hold small exact integers here) and the
back-reference `sortedMap` (here `owner : Option Nat`, a map identity; JS
object identity of maps is embedded as a numeric id).

The in-place mutations of the source are embedded functionally: each helper
returns the new subtree exactly as the TS helpers do (`_getNodeOrCompute`,
`_deleteNode`, … all return the node to put in place of their argument), and
the field assignments performed on a node before the helper returns are
reproduced on the rebuilt value.  In particular the *order* of cache updates
inside `rotateLeft` / `rotateRight` is kept: the source updates the promoted
child first and the demoted node afterwards, so the promoted node's cache is
recomputed from the demoted node's stale depth/count.  Effectful callbacks
(`compute`, deletion `condition`) are embedded as pure functions plus an
explicit call counter in the result.
-/

namespace Garwin

/-- Comparator over keys, as in `src/itmod/sorting` (not under `src/`):
a total-order function `cmp(a,b) -> {less, equal, greater}` per the spec,
embedded with result type `Ordering`. -/
abbrev Cmp (K : Type) := K → K → Ordering

/-- Modelled from the spec: `cmpLT` of `src/itmod/sorting` is missing from
`src/`; per the spec a comparison result is one of less/equal/greater, and
`cmpLT` tests "less". -/
def cmpLT (o : Ordering) : Bool := o = .lt

/-- Modelled from the spec: `cmpGT` of `src/itmod/sorting` tests "greater". -/
def cmpGT (o : Ordering) : Bool := o = .gt

/-- Modelled from the spec: `cmpLE` of `src/itmod/sorting` tests "less or equal". -/
def cmpLE (o : Ordering) : Bool := o ≠ .gt

/-- Modelled from the spec: `cmpGE` of `src/itmod/sorting` tests "greater or equal". -/
def cmpGE (o : Ordering) : Bool := o ≠ .lt

/-- Modelled from the spec: `cmpNQ` of `src/itmod/sorting` tests "not equal". -/
def cmpNQ (o : Ordering) : Bool := o ≠ .eq

/-- Modelled from the spec: `reverseComparator` of `src/itmod/sorting`
composes a comparator with order reversal (swaps the arguments). -/
def reverseCmp (cmp : Cmp K) : Cmp K := fun a b => cmp b a

/-- Modelled from the spec: `autoComparator` of `src/itmod/sorting` is the
natural ordering over comparable keys; embedded as `compare` of a linear
order. -/
def autoComparator {K : Type} [LinearOrder K] : Cmp K := compare

/-- A subtree: `nil` is the TS `undefined`, `node` is a `Node` with key,
value, `sortedMap` back-reference, children, and the cached `depth`,
`nodeCount` and `balanceFactor` fields (in this order). -/
inductive Tree (K V : Type) where
  | nil : Tree K V
  | node (key : K) (val : V) (owner : Option Nat)
      (left right : Tree K V) (d c b : Int) : Tree K V
deriving DecidableEq

namespace Tree

variable {K V : Type}

/-- `this.left?.depth ?? 0`. -/
def depthOf : Tree K V → Int
  | .nil => 0
  | .node _ _ _ _ _ d _ _ => d

/-- `this.left?.nodeCount ?? 0`. -/
def cntOf : Tree K V → Int
  | .nil => 0
  | .node _ _ _ _ _ _ c _ => c

/-- The cached `balanceFactor` of a node (0 for an absent node). -/
def bfOf : Tree K V → Int
  | .nil => 0
  | .node _ _ _ _ _ _ _ b => b

/-- The node's key, as an option (a node always has one; `nil` has none). -/
def keyOf : Tree K V → Option K
  | .nil => none
  | .node k _ _ _ _ _ _ _ => some k

/-- The node's value, as an option. -/
def valOf : Tree K V → Option V
  | .nil => none
  | .node _ v _ _ _ _ _ _ => some v

/-- The node's `sortedMap` back-reference (map identity). -/
def ownerOf : Tree K V → Option Nat
  | .nil => none
  | .node _ _ o _ _ _ _ _ => o

/-- `Node.update()`: recompute `depth`, `nodeCount` and `balanceFactor` from
the children's cached fields. -/
def update : Tree K V → Tree K V
  | .nil => .nil
  | .node k v o l r _ _ _ =>
      .node k v o l r (max l.depthOf r.depthOf + 1) (l.cntOf + r.cntOf + 1)
        (r.depthOf - l.depthOf)

/-- `Node.updateBalanceFactor()`: recompute only `balanceFactor`. -/
def updateBF : Tree K V → Tree K V
  | .nil => .nil
  | .node k v o l r d c _ => .node k v o l r d c (r.depthOf - l.depthOf)

/-- `Node.rotateLeft()`.  The source sets `this.right = right.left`,
`right.left = this`, then calls `right.update()` **before** `this.update()`,
so the promoted node's cache is computed from the demoted node's stale
cached depth/count.  A node without a right child throws in TS; that case is
embedded as the identity (it is never reached by the operations below). -/
def rotateLeft : Tree K V → Tree K V
  | .node k v o l (.node rk rv ro rl rr _ _ _) d c b =>
      let s := Tree.node k v o l rl d c b
      Tree.node rk rv ro s.update rr (max s.depthOf rr.depthOf + 1)
        (s.cntOf + rr.cntOf + 1) (rr.depthOf - s.depthOf)
  | t => t

/-- `Node.rotateRight()`, mirror of `rotateLeft` with the same update order. -/
def rotateRight : Tree K V → Tree K V
  | .node k v o (.node lk lv lo ll lr _ _ _) r d c b =>
      let s := Tree.node k v o lr r d c b
      Tree.node lk lv lo ll s.update (max ll.depthOf s.depthOf + 1)
        (ll.cntOf + s.cntOf + 1) (s.depthOf - ll.depthOf)
  | t => t

/-- `Node.balance()`: single right rotation when the cached balance factor is
below `-1`, single left rotation when above `1`, otherwise unchanged. -/
def balance (t : Tree K V) : Tree K V :=
  match t with
  | .nil => .nil
  | .node _ _ _ _ _ _ _ b =>
      if b < -1 then t.rotateRight else if b > 1 then t.rotateLeft else t

/-- The in-order entry sequence of a subtree (what full iteration yields). -/
def entries : Tree K V → List (K × V)
  | .nil => []
  | .node k v _ l r _ _ _ => l.entries ++ (k, v) :: r.entries

/-- The in-order key sequence. -/
def keys (t : Tree K V) : List K := t.entries.map Prod.fst

end Tree

/-- `new Node(key, value, this)`: a fresh leaf owned by map `mid`; the
constructor computes `depth = 1`, `nodeCount = 1`, `balanceFactor = 0`. -/
def mkNode (k : K) (v : V) (mid : Nat) : Tree K V :=
  Tree.node k v (some mid) .nil .nil 1 1 0

/-- `SortedMap._getNodeOrCompute` (together with the root case of
`getNodeOrCompute`): returns the new subtree, the value already stored under
the key (`none` when the key was absent), and the number of calls made to the
`compute` thunk (the thunk is embedded as the pure value `v`). -/
def getNodeOrComputeRec (cmp : Cmp K) (mid : Nat) (k : K) (v : V) :
    Tree K V → Tree K V × Option V × Nat
  | .nil => (mkNode k v mid, none, 1)
  | .node nk nv o l r d c b =>
    match cmp k nk with
    | .lt =>
        let p := getNodeOrComputeRec cmp mid k v l
        (((Tree.node nk nv o p.1 r d c b).update).balance, p.2)
    | .gt =>
        let p := getNodeOrComputeRec cmp mid k v r
        (((Tree.node nk nv o l p.1 d c b).update).balance, p.2)
    | .eq => (Tree.node nk nv o l r d c b, some nv, 0)

/-- The in-place write `node.key = key; node.value = value` performed by
`SortedMap.set` on the entry returned by `getNodeOrCompute` when the key was
already present.  The mutated node is the unique comparator-equal node of the
(BST-ordered) tree, so the write is embedded as a comparator-guided descent
that replaces that node's key and value. -/
def writeKV (cmp : Cmp K) (k : K) (v : V) : Tree K V → Tree K V
  | .nil => .nil
  | .node nk nv o l r d c b =>
    match cmp k nk with
    | .lt => .node nk nv o (writeKV cmp k v l) r d c b
    | .gt => .node nk nv o l (writeKV cmp k v r) d c b
    | .eq => .node k v o l r d c b

/-- `SortedMap.set(key, value, replace)`: insert-or-find, then overwrite key
and value in place when the key already existed and `replace` is set. -/
def setT (cmp : Cmp K) (mid : Nat) (t : Tree K V) (k : K) (v : V)
    (replace : Bool) : Tree K V :=
  let p := getNodeOrComputeRec cmp mid k v t
  match p.2.1 with
  | none => p.1
  | some _ => if replace then writeKV cmp k v p.1 else p.1

/-- `SortedMap.getNode`: iterative comparator-guided descent, returning the
found node (the entry handle). -/
def getNodeT (cmp : Cmp K) (k : K) : Tree K V → Option (Tree K V)
  | .nil => none
  | .node nk nv o l r d c b =>
    match cmp k nk with
    | .lt => getNodeT cmp k l
    | .gt => getNodeT cmp k r
    | .eq => some (.node nk nv o l r d c b)

/-- `SortedMap.get`: `getEntry(key)?.value`. -/
def getT (cmp : Cmp K) (k : K) (t : Tree K V) : Option V :=
  (getNodeT cmp k t).bind Tree.valOf

/-- `SortedMap.getSmallestNode`: descend left to the extreme node. -/
def getSmallestT : Tree K V → Option (Tree K V)
  | .nil => none
  | .node k v o .nil r d c b => some (.node k v o .nil r d c b)
  | .node _ _ _ (.node lk lv lo ll lr ld lc lb) _ _ _ _ =>
      getSmallestT (.node lk lv lo ll lr ld lc lb)

/-- `SortedMap.getLargestNode`: descend right to the extreme node. -/
def getLargestT : Tree K V → Option (Tree K V)
  | .nil => none
  | .node k v o l .nil d c b => some (.node k v o l .nil d c b)
  | .node _ _ _ _ (.node rk rv ro rl rr rd rc rb) _ _ _ =>
      getLargestT (.node rk rv ro rl rr rd rc rb)

/-- `SortedMap._deleteSmallestNode`: returns the new subtree, the removed
entry (`none` when nothing was removed), and the number of calls made to the
`condition` callback.  At the leftmost node the removed node is emancipated
(`sortedMap`, `left`, `right` cleared) and replaced by its right child. -/
def deleteSmallestRec (cond : K → V → Bool) :
    Tree K V → Tree K V × Option (K × V) × Nat
  | .nil => (.nil, none, 0)
  | .node k v o .nil r d c b =>
      if cond k v then (r, some (k, v), 1)
      else (.node k v o .nil r d c b, none, 1)
  | .node k v o (.node lk lv lo ll lr ld lc lb) r d c b =>
      let p := deleteSmallestRec cond (.node lk lv lo ll lr ld lc lb)
      (((Tree.node k v o p.1 r d c b).update).balance, p.2)

/-- `SortedMap._deleteLargestNode`, mirror of `_deleteSmallestNode`. -/
def deleteLargestRec (cond : K → V → Bool) :
    Tree K V → Tree K V × Option (K × V) × Nat
  | .nil => (.nil, none, 0)
  | .node k v o l .nil d c b =>
      if cond k v then (l, some (k, v), 1)
      else (.node k v o l .nil d c b, none, 1)
  | .node k v o l (.node rk rv ro rl rr rd rc rb) d c b =>
      let p := deleteLargestRec cond (.node rk rv ro rl rr rd rc rb)
      (((Tree.node k v o l p.1 d c b).update).balance, p.2)

/-- `SortedMap._deleteNode`: comparator-guided descent; at the match the
`condition` is consulted (returning the node unchanged when it refuses); on
deletion a node with two children is replaced by the in-order successor,
extracted from the right subtree via `_deleteSmallestNode` with an
always-true condition.  The extracted successor was emancipated there, so it
is re-linked with `sortedMap` still cleared (`owner = none`), then updated
and balanced; with one child the sole child is balanced; ancestors update
and balance on the way back. -/
def deleteNodeRec (cmp : Cmp K) (cond : K → V → Bool) (k : K) :
    Tree K V → Tree K V × Option (K × V) × Nat
  | .nil => (.nil, none, 0)
  | .node nk nv o l r d c b =>
    match cmp k nk with
    | .lt =>
        let p := deleteNodeRec cmp cond k l
        (((Tree.node nk nv o p.1 r d c b).update).balance, p.2)
    | .gt =>
        let p := deleteNodeRec cmp cond k r
        (((Tree.node nk nv o l p.1 d c b).update).balance, p.2)
    | .eq =>
        if cond nk nv then
          match l, r with
          | .nil, .nil => (.nil, some (nk, nv), 1)
          | .nil, .node rk rv ro rl rr rd rc rb =>
              ((Tree.node rk rv ro rl rr rd rc rb).balance, some (nk, nv), 1)
          | .node lk lv lo ll lr ld lc lb, .nil =>
              ((Tree.node lk lv lo ll lr ld lc lb).balance, some (nk, nv), 1)
          | .node lk lv lo ll lr ld lc lb, .node rk rv ro rl rr rd rc rb =>
              let p := deleteSmallestRec (fun _ _ => true)
                (.node rk rv ro rl rr rd rc rb)
              match p.2.1 with
              | some sc =>
                  (((Tree.node sc.1 sc.2 none
                      (.node lk lv lo ll lr ld lc lb) p.1 0 0 0).update).balance,
                    some (nk, nv), 1)
              | none => (.nil, some (nk, nv), 1)
        else (.node nk nv o l r d c b, none, 1)

/-- `SortedMap._invert`: swap the children and recompute only the balance
factor (from the children's cached depths, which inversion never changes),
recursively over the whole tree. -/
def invertT : Tree K V → Tree K V
  | .nil => .nil
  | .node k v o l r d c _ =>
      .node k v o (invertT r) (invertT l) d c (l.depthOf - r.depthOf)

/-- `SortedMap.reKey(entry, newKey)` on an entry handle: succeeds only when
the handle's `sortedMap` is this map (`mid`) and the comparator reports the
new key equal to the current key; then the key is overwritten in place.
Returns the (possibly updated) handle and whether the key was replaced. -/
def reKeyOn (cmp : Cmp K) (mid : Nat) (h : Tree K V) (newKey : K) :
    Tree K V × Bool :=
  match h with
  | .nil => (.nil, false)
  | .node k v o l r d c b =>
      if o ≠ some mid then (.node k v o l r d c b, false)
      else if cmpNQ (cmp newKey k) then (.node k v o l r d c b, false)
      else (.node newKey v o l r d c b, true)

/-- `SortedMap.reValue(entry, newValue)`: succeeds only when the handle's
`sortedMap` is this map; then the value is overwritten in place. -/
def reValueOn (mid : Nat) (h : Tree K V) (newValue : V) : Tree K V × Bool :=
  match h with
  | .nil => (.nil, false)
  | .node k v o l r d c b =>
      if o ≠ some mid then (.node k v o l r d c b, false)
      else (.node k newValue o l r d c b, true)

/-- The in-place key write performed by a successful `reKey` on a node inside
the tree, located by its current key. -/
def writeKeyAt (cmp : Cmp K) (k newKey : K) : Tree K V → Tree K V
  | .nil => .nil
  | .node nk nv o l r d c b =>
    match cmp k nk with
    | .lt => .node nk nv o (writeKeyAt cmp k newKey l) r d c b
    | .gt => .node nk nv o l (writeKeyAt cmp k newKey r) d c b
    | .eq => .node newKey nv o l r d c b

/-- The public mutations of the map named by the invariants claims.  The
`condition` callbacks of the deletion operations are embedded as pure
predicates on the entry; the `compute` thunk of `getOrCompute` as its
value. -/
inductive Op (K V : Type) where
  | set (k : K) (v : V) (replace : Bool)
  | getOrCompute (k : K) (v : V)
  | del (k : K) (cond : K → V → Bool)
  | delSmallest (cond : K → V → Bool)
  | delLargest (cond : K → V → Bool)
  | reKeyByKey (k newKey : K)
  | reverse
  | clear

/-- The state of a `SortedMap`: the root and the comparator.  The comparator
starts as `autoComparator` and is only ever composed with order reversal, so
it is represented by the reversal parity `flip`. -/
structure MState (K V : Type) where
  root : Tree K V
  flip : Bool
deriving DecidableEq

/-- The map's current comparator: `autoComparator`, reversed once per
`reverse()` call. -/
def mcmp [LinearOrder K] (s : MState K V) : Cmp K :=
  if s.flip then reverseCmp autoComparator else autoComparator

/-- One public mutation.  `reKeyByKey` locates the handle by its current key
with `getNode` and applies `reKey` to it, writing the key back into the tree
on success (the map instance id is `0`; nodes spliced back by `_deleteNode`
after emancipation have lost their back-reference and therefore fail the
ownership check). -/
def step [LinearOrder K] (s : MState K V) : Op K V → MState K V
  | .set k v replace => { s with root := setT (mcmp s) 0 s.root k v replace }
  | .getOrCompute k v =>
      { s with root := (getNodeOrComputeRec (mcmp s) 0 k v s.root).1 }
  | .del k cond => { s with root := (deleteNodeRec (mcmp s) cond k s.root).1 }
  | .delSmallest cond => { s with root := (deleteSmallestRec cond s.root).1 }
  | .delLargest cond => { s with root := (deleteLargestRec cond s.root).1 }
  | .reKeyByKey k newKey =>
      match getNodeT (mcmp s) k s.root with
      | none => s
      | some h =>
          if (reKeyOn (mcmp s) 0 h newKey).2 then
            { s with root := writeKeyAt (mcmp s) k newKey s.root }
          else s
  | .reverse => { root := invertT s.root, flip := !s.flip }
  | .clear => { s with root := .nil }

/-- The empty map: no root, comparator not yet reversed. -/
def empty : MState K V := { root := .nil, flip := false }

/-- Run a sequence of public mutations from the empty map. -/
def run [LinearOrder K] (ops : List (Op K V)) : MState K V :=
  ops.foldl step empty

/-- A `min`/`max` bound spec of `getRange`: absent, a bare key (inclusive),
a `[key, "inclusive" | "exclusive"]` pair, or a predicate on keys. -/
inductive Bnd (K : Type) where
  | noBound : Bnd K
  | key (k : K) : Bnd K
  | pair (k : K) (exclusive : Bool) : Bnd K
  | pred (p : K → Bool) : Bnd K

/-- The `tooSmall` flag `getRange` computes for a visited key against the
`min` bound: a failing predicate, or `cmpLE`/`cmpLT` of
`comparator(key, min)` for an exclusive/inclusive key bound. -/
def tooSmallB (cmp : Cmp K) (mn : Bnd K) (k : K) : Bool :=
  match mn with
  | .noBound => false
  | .pred p => !p k
  | .pair m excl => if excl then cmpLE (cmp k m) else cmpLT (cmp k m)
  | .key m => cmpLT (cmp k m)

/-- The `tooBig` flag `getRange` computes for a visited key against the
`max` bound. -/
def tooBigB (cmp : Cmp K) (mx : Bnd K) (k : K) : Bool :=
  match mx with
  | .noBound => false
  | .pred p => !p k
  | .pair m excl => if excl then cmpGE (cmp k m) else cmpGT (cmp k m)
  | .key m => cmpGT (cmp k m)

/-- The `recur` generator of `SortedMap.getRange`: skips the smaller-keys
subtree when the node is `tooSmall`, the larger-keys subtree when `tooBig`,
yields the node when neither flag is set, in reverse order when `reversed`. -/
def getRangeRec (cmp : Cmp K) (mn mx : Bnd K) (rev : Bool) :
    Tree K V → List (K × V)
  | .nil => []
  | .node k v _ l r _ _ _ =>
      let ts := tooSmallB cmp mn k
      let tb := tooBigB cmp mx k
      if rev then
        (if !tb then getRangeRec cmp mn mx rev r else [])
          ++ (if !tb && !ts then [(k, v)] else [])
          ++ (if !ts then getRangeRec cmp mn mx rev l else [])
      else
        (if !ts then getRangeRec cmp mn mx rev l else [])
          ++ (if !tb && !ts then [(k, v)] else [])
          ++ (if !tb then getRangeRec cmp mn mx rev r else [])

/-- `SortedMap._iteratorReversed`: right subtree, node, left subtree. -/
def Tree.entriesRev : Tree K V → List (K × V)
  | .nil => []
  | .node k v _ l r _ _ _ => r.entriesRev ++ (k, v) :: l.entriesRev

/-- The query operations of the map (all the non-mutating public API). -/
inductive Query (K V : Type) where
  | get (k : K)
  | getEntry (k : K)
  | getSmallestEntry
  | getLargestEntry
  | range (mn mx : Bnd K) (rev : Bool)
  | keysQ
  | valuesQ
  | entriesQ
  | iter
  | reversedIter

/-- The possible results of a query. -/
inductive Ans (K V : Type) where
  | value (v : Option V)
  | entry (h : Option (Tree K V))
  | entryList (l : List (K × V))
  | keyList (l : List K)
  | valueList (l : List V)

/-- Run one query against the map state.  Each query of the source walks the
tree without a single assignment, so its embedding returns the answer paired
with the state it was given. -/
def runQuery [LinearOrder K] (q : Query K V) (s : MState K V) :
    Ans K V × MState K V :=
  match q with
  | .get k => (.value (getT (mcmp s) k s.root), s)
  | .getEntry k => (.entry (getNodeT (mcmp s) k s.root), s)
  | .getSmallestEntry => (.entry (getSmallestT s.root), s)
  | .getLargestEntry => (.entry (getLargestT s.root), s)
  | .range mn mx rev => (.entryList (getRangeRec (mcmp s) mn mx rev s.root), s)
  | .keysQ => (.keyList s.root.keys, s)
  | .valuesQ => (.valueList (s.root.entries.map Prod.snd), s)
  | .entriesQ => (.entryList s.root.entries, s)
  | .iter => (.entryList s.root.entries, s)
  | .reversedIter => (.entryList s.root.entriesRev, s)

/-- Whether every reachable node's cached `balanceFactor` lies in
`{-1, 0, 1}`. -/
def bfInvariant : Tree K V → Bool
  | .nil => true
  | .node _ _ _ l r _ _ b =>
      decide (-1 ≤ b ∧ b ≤ 1) && bfInvariant l && bfInvariant r

/-- The true height of a subtree, ignoring the cached `depth` fields. -/
def Tree.actualDepth : Tree K V → Int
  | .nil => 0
  | .node _ _ _ l r _ _ _ => max l.actualDepth r.actualDepth + 1

/-- Whether every reachable node's *recomputed* balance factor (true right
height minus true left height) lies in `{-1, 0, 1}`. -/
def bfActualInvariant : Tree K V → Bool
  | .nil => true
  | .node _ _ _ l r _ _ _ =>
      decide (-1 ≤ r.actualDepth - l.actualDepth ∧
          r.actualDepth - l.actualDepth ≤ 1)
        && bfActualInvariant l && bfActualInvariant r

/-- Recompute every node's `balanceFactor` from its children's cached
depths, leaving everything else untouched. -/
def recompBF : Tree K V → Tree K V
  | .nil => .nil
  | .node k v o l r d c _ =>
      .node k v o (recompBF l) (recompBF r) d c (r.depthOf - l.depthOf)

/-- Whether every node's cached `balanceFactor` agrees with its children's
cached depths. -/
def bfConsistent : Tree K V → Bool
  | .nil => true
  | .node _ _ _ l r _ _ b =>
      decide (b = r.depthOf - l.depthOf) && bfConsistent l && bfConsistent r

/-- Association-list lookup by comparator equality: the specification-side
mirror of the tree descent. -/
def lookupA (cmp : Cmp K) (k : K) : List (K × V) → Option (K × V)
  | [] => none
  | e :: es => if cmp k e.1 = .eq then some e else lookupA cmp k es

/-- Insertion into a sorted association list, before the first strictly
larger key. -/
def insertA (cmp : Cmp K) (k : K) (v : V) : List (K × V) → List (K × V)
  | [] => [(k, v)]
  | e :: es =>
      if cmp k e.1 = .lt then (k, v) :: e :: es else e :: insertA cmp k v es

/-- Removal of the first comparator-equal entry. -/
def removeA (cmp : Cmp K) (k : K) : List (K × V) → List (K × V)
  | [] => []
  | e :: es => if cmp k e.1 = .eq then es else e :: removeA cmp k es

/-- Overwriting key and value of the first comparator-equal entry. -/
def updateA (cmp : Cmp K) (k : K) (v : V) : List (K × V) → List (K × V)
  | [] => []
  | e :: es =>
      if cmp k e.1 = .eq then (k, v) :: es else e :: updateA cmp k v es

/-- Strict sortedness of an association list under a comparator. -/
def sortedE (cmp : Cmp K) (es : List (K × V)) : Prop :=
  es.Pairwise (fun a b => cmp a.1 b.1 = .lt)

/-- The BST-order invariant, as the spec states it: for every reachable
node, all keys in its left subtree compare less than its key and all keys in
its right subtree compare greater, per the comparator. -/
def BST (cmp : Cmp K) : Tree K V → Prop
  | .nil => True
  | .node k _ _ l r _ _ _ =>
      (∀ x ∈ l.keys, cmp x k = .lt) ∧ (∀ x ∈ r.keys, cmp x k = .gt) ∧
        BST cmp l ∧ BST cmp r

/-- Lawfulness of a comparator: the properties `autoComparator` (a linear
order's `compare`) and its reversal enjoy. -/
structure LawCmp (cmp : Cmp K) : Prop where
  eq_iff : ∀ a b, cmp a b = .eq ↔ a = b
  lt_iff_gt : ∀ a b, cmp a b = .lt ↔ cmp b a = .gt
  lt_trans : ∀ {a b c}, cmp a b = .lt → cmp b c = .lt → cmp a c = .lt

/-- The `min` bound accepts an up-set of keys: anything below an accepted key
is accepted... stated contrapositively on the `tooSmall` flag.  Key bounds
always satisfy this; predicate bounds need not. -/
def MinClosed (cmp : Cmp K) (mn : Bnd K) : Prop :=
  ∀ x y, cmp x y = .lt → tooSmallB cmp mn y = true → tooSmallB cmp mn x = true

/-- The `max` bound accepts a down-set of keys, stated on the `tooBig`
flag. -/
def MaxClosed (cmp : Cmp K) (mx : Bnd K) : Prop :=
  ∀ x y, cmp x y = .lt → tooBigB cmp mx x = true → tooBigB cmp mx y = true

/-! ## Comparator lawfulness -/

variable {K V : Type}

theorem lawCmp_auto [LinearOrder K] : LawCmp (autoComparator (K := K)) where
  eq_iff _ _ := compare_eq_iff_eq
  lt_iff_gt a b := by
    unfold autoComparator
    rw [compare_lt_iff_lt, compare_gt_iff_gt]
  lt_trans h₁ h₂ := by
    unfold autoComparator at h₁ h₂ ⊢
    rw [compare_lt_iff_lt] at h₁ h₂ ⊢
    exact lt_trans h₁ h₂

theorem lawCmp_reverse {cmp : Cmp K} (law : LawCmp cmp) :
    LawCmp (reverseCmp cmp) where
  eq_iff a b := by
    unfold reverseCmp
    rw [law.eq_iff]; exact eq_comm
  lt_iff_gt a b := by
    unfold reverseCmp
    exact (law.lt_iff_gt b a)
  lt_trans h₁ h₂ := law.lt_trans h₂ h₁

theorem lawCmp_mcmp [LinearOrder K] (s : MState K V) : LawCmp (mcmp s) := by
  unfold mcmp
  by_cases h : s.flip
  · simp only [h, if_true]
    exact lawCmp_reverse lawCmp_auto
  · simp only [h, if_false]
    exact lawCmp_auto

namespace LawCmp

variable {cmp : Cmp K}

theorem refl_eq (law : LawCmp cmp) (a : K) : cmp a a = .eq :=
  (law.eq_iff a a).2 rfl

theorem gt_iff_lt (law : LawCmp cmp) (a b : K) :
    cmp a b = .gt ↔ cmp b a = .lt :=
  (law.lt_iff_gt b a).symm

end LawCmp

theorem ordLt_of_not {o : Ordering} (h₁ : o ≠ .eq) (h₂ : o ≠ .gt) :
    o = .lt := by
  cases o
  · rfl
  · exact absurd rfl h₁
  · exact absurd rfl h₂

theorem ordGt_of_not {o : Ordering} (h₁ : o ≠ .eq) (h₂ : o ≠ .lt) :
    o = .gt := by
  cases o
  · exact absurd rfl h₂
  · exact absurd rfl h₁
  · rfl

theorem ordNe_eq_of_lt {o : Ordering} (h : o = .lt) : o ≠ .eq := by
  rw [h]; exact fun hc => Ordering.noConfusion hc

theorem ordNe_eq_of_gt {o : Ordering} (h : o = .gt) : o ≠ .eq := by
  rw [h]; exact fun hc => Ordering.noConfusion hc

theorem ordNe_lt_of_gt {o : Ordering} (h : o = .gt) : o ≠ .lt := by
  rw [h]; exact fun hc => Ordering.noConfusion hc

namespace LawCmp

variable {cmp : Cmp K}

/-- `a < b < c` transfers through `gt` form as well. -/
theorem gt_trans (law : LawCmp cmp) {a b c : K} (h₁ : cmp a b = .gt)
    (h₂ : cmp b c = .gt) : cmp a c = .gt := by
  rw [law.gt_iff_lt] at h₁ h₂ ⊢
  exact law.lt_trans h₂ h₁

theorem lt_of_lt_of_eq (law : LawCmp cmp) {a b c : K} (h₁ : cmp a b = .lt)
    (h₂ : cmp b c = .eq) : cmp a c = .lt := by
  rw [law.eq_iff] at h₂; rwa [h₂] at h₁

theorem lt_of_eq_of_lt (law : LawCmp cmp) {a b c : K} (h₁ : cmp a b = .eq)
    (h₂ : cmp b c = .lt) : cmp a c = .lt := by
  rw [law.eq_iff] at h₁; rwa [← h₁] at h₂

end LawCmp

/-! ## Entry sequences of the tree transformers -/

namespace Tree

@[simp] theorem entries_update (t : Tree K V) :
    t.update.entries = t.entries := by
  cases t <;> rfl

@[simp] theorem entries_updateBF (t : Tree K V) :
    t.updateBF.entries = t.entries := by
  cases t <;> rfl

@[simp] theorem entries_rotateLeft (t : Tree K V) :
    t.rotateLeft.entries = t.entries := by
  match t with
  | .nil => rfl
  | .node k v o l .nil d c b => rfl
  | .node k v o l (.node rk rv ro rl rr rd rc rb) d c b =>
      show (l.entries ++ (k, v) :: rl.entries) ++ (rk, rv) :: rr.entries = _
      simp [entries]

@[simp] theorem entries_rotateRight (t : Tree K V) :
    t.rotateRight.entries = t.entries := by
  match t with
  | .nil => rfl
  | .node k v o .nil r d c b => rfl
  | .node k v o (.node lk lv lo ll lr ld lc lb) r d c b =>
      show ll.entries ++ (lk, lv) :: (lr.entries ++ (k, v) :: r.entries) = _
      simp [entries]

@[simp] theorem entries_balance (t : Tree K V) :
    t.balance.entries = t.entries := by
  cases t with
  | nil => rfl
  | node k v o l r d c b =>
      simp only [balance]
      split_ifs
      · exact entries_rotateRight _
      · exact entries_rotateLeft _
      · rfl

theorem mem_keys_of_mem_entries {t : Tree K V} {e : K × V}
    (h : e ∈ t.entries) : e.1 ∈ t.keys :=
  List.mem_map_of_mem Prod.fst h

theorem mem_keys_iff {t : Tree K V} {x : K} :
    x ∈ t.keys ↔ ∃ v, (x, v) ∈ t.entries := by
  unfold keys
  rw [List.mem_map]
  constructor
  · rintro ⟨⟨a, b⟩, hm, rfl⟩
    exact ⟨b, hm⟩
  · rintro ⟨v, hv⟩
    exact ⟨(x, v), hv, rfl⟩

theorem entries_ne_nil (k : K) (v : V) (o : Option Nat) (l r : Tree K V)
    (d c b : Int) : (Tree.node k v o l r d c b).entries ≠ [] := by
  simp [entries]

end Tree

/-! ## BST order is sortedness of the in-order entry sequence -/

theorem bst_iff_sortedE {cmp : Cmp K} (law : LawCmp cmp) :
    ∀ t : Tree K V, BST cmp t ↔ sortedE cmp t.entries := by
  intro t
  induction t with
  | nil => simp [BST, sortedE, Tree.entries]
  | node k v o l r d c b ihl ihr =>
      simp only [BST, sortedE, Tree.entries, List.pairwise_append,
        List.pairwise_cons]
      constructor
      · rintro ⟨hl, hr, bl, br⟩
        have hr' : ∀ x ∈ r.keys, cmp k x = .lt := fun x hx =>
          (law.gt_iff_lt x k).1 (hr x hx)
        refine ⟨ihl.1 bl, ⟨?_, ihr.1 br⟩, ?_⟩
        · intro e he
          exact hr' e.1 (Tree.mem_keys_of_mem_entries he)
        · intro a ha e he
          have hak : cmp a.1 k = .lt := hl a.1 (Tree.mem_keys_of_mem_entries ha)
          rcases List.mem_cons.1 he with rfl | he
          · exact hak
          · exact law.lt_trans hak (hr' e.1 (Tree.mem_keys_of_mem_entries he))
      · rintro ⟨sl, ⟨hk, sr⟩, hx⟩
        refine ⟨?_, ?_, ihl.2 sl, ihr.2 sr⟩
        · intro x hxl
          rcases Tree.mem_keys_iff.1 hxl with ⟨w, hw⟩
          exact hx (x, w) hw (k, v) (List.mem_cons_self _ _)
        · intro x hxr
          rcases Tree.mem_keys_iff.1 hxr with ⟨w, hw⟩
          rw [law.gt_iff_lt]
          exact hk (x, w) hw

/-! ## Association-list lemmas -/

theorem sortedE_nil {cmp : Cmp K} : sortedE cmp ([] : List (K × V)) :=
  List.Pairwise.nil

theorem sortedE_cons {cmp : Cmp K} {e : K × V} {es : List (K × V)} :
    sortedE cmp (e :: es) ↔
      (∀ b ∈ es, cmp e.1 b.1 = .lt) ∧ sortedE cmp es :=
  List.pairwise_cons

theorem sortedE_sublist {cmp : Cmp K} {es es' : List (K × V)}
    (hsub : List.Sublist es' es) (hs : sortedE cmp es) : sortedE cmp es' :=
  List.Pairwise.sublist hsub hs

theorem lookupA_append (cmp : Cmp K) (k : K) (es₁ es₂ : List (K × V)) :
    lookupA cmp k (es₁ ++ es₂) =
      match lookupA cmp k es₁ with
      | some e => some e
      | none => lookupA cmp k es₂ := by
  induction es₁ with
  | nil => simp [lookupA]
  | cons e es ih =>
      by_cases h : cmp k e.1 = .eq
      · simp [lookupA, h]
      · simp [lookupA, h, ih]

theorem lookupA_eq_none {cmp : Cmp K} {k : K} {es : List (K × V)} :
    lookupA cmp k es = none ↔ ∀ e ∈ es, cmp k e.1 ≠ .eq := by
  induction es with
  | nil => simp [lookupA]
  | cons e es ih =>
      by_cases h : cmp k e.1 = .eq
      · simp [lookupA, h]
      · simp [lookupA, h, ih]

theorem mem_of_lookupA {cmp : Cmp K} {k : K} {es : List (K × V)} {e : K × V}
    (h : lookupA cmp k es = some e) : e ∈ es ∧ cmp k e.1 = .eq := by
  induction es with
  | nil => simp [lookupA] at h
  | cons a es ih =>
      by_cases ha : cmp k a.1 = .eq
      · simp only [lookupA, if_pos ha, Option.some.injEq] at h
        subst h
        exact ⟨List.mem_cons_self _ _, ha⟩
      · simp only [lookupA, if_neg ha] at h
        exact ⟨List.mem_cons_of_mem _ (ih h).1, (ih h).2⟩

theorem insertA_append_lt (cmp : Cmp K) (k : K) (v : V) {a : K × V}
    (ha : cmp k a.1 = .lt) (es₁ es₂ : List (K × V)) :
    insertA cmp k v (es₁ ++ a :: es₂) = insertA cmp k v es₁ ++ a :: es₂ := by
  induction es₁ with
  | nil => simp [insertA, ha]
  | cons e es ih =>
      by_cases h : cmp k e.1 = .lt
      · simp [insertA, h]
      · simp [insertA, h, ih]

theorem insertA_skip (cmp : Cmp K) (k : K) (v : V) {es₁ : List (K × V)}
    (h : ∀ e ∈ es₁, cmp k e.1 ≠ .lt) (es₂ : List (K × V)) :
    insertA cmp k v (es₁ ++ es₂) = es₁ ++ insertA cmp k v es₂ := by
  induction es₁ with
  | nil => simp
  | cons e es ih =>
      have he : cmp k e.1 ≠ .lt := h e (List.mem_cons_self _ _)
      have ih' := ih (fun e' he' => h e' (List.mem_cons_of_mem _ he'))
      simp only [List.cons_append, insertA, if_neg he]
      exact congrArg (List.cons e) ih'

theorem mem_insertA {cmp : Cmp K} {k : K} {v : V} {es : List (K × V)}
    {e : K × V} (h : e ∈ insertA cmp k v es) : e = (k, v) ∨ e ∈ es := by
  induction es with
  | nil =>
      simp only [insertA, List.mem_singleton] at h
      exact Or.inl h
  | cons a es ih =>
      by_cases ha : cmp k a.1 = .lt
      · rw [insertA, if_pos ha] at h
        rcases List.mem_cons.1 h with rfl | h
        · exact Or.inl rfl
        · exact Or.inr h
      · rw [insertA, if_neg ha] at h
        rcases List.mem_cons.1 h with rfl | h
        · exact Or.inr (List.mem_cons_self _ _)
        · rcases ih h with h' | h'
          · exact Or.inl h'
          · exact Or.inr (List.mem_cons_of_mem _ h')

theorem sortedE_insertA {cmp : Cmp K} (law : LawCmp cmp) {k : K} {v : V}
    {es : List (K × V)} (hs : sortedE cmp es)
    (hne : ∀ e ∈ es, cmp k e.1 ≠ .eq) :
    sortedE cmp (insertA cmp k v es) := by
  induction es with
  | nil =>
      rw [insertA]
      exact List.pairwise_singleton _ _
  | cons a es ih =>
      rw [sortedE_cons] at hs
      by_cases ha : cmp k a.1 = .lt
      · rw [insertA, if_pos ha, sortedE_cons]
        refine ⟨?_, sortedE_cons.2 hs⟩
        intro e he
        rcases List.mem_cons.1 he with rfl | he
        · exact ha
        · exact law.lt_trans ha (hs.1 e he)
      · rw [insertA, if_neg ha, sortedE_cons]
        have hka : cmp k a.1 = .gt :=
          ordGt_of_not (hne a (List.mem_cons_self _ _)) ha
        refine ⟨?_, ih hs.2 (fun e he => hne e (List.mem_cons_of_mem _ he))⟩
        intro e he
        rcases mem_insertA he with rfl | he
        · exact (law.gt_iff_lt k a.1).1 hka
        · exact hs.1 e he

theorem lookupA_insertA_self {cmp : Cmp K} (law : LawCmp cmp) (k : K) (v : V)
    {es : List (K × V)} (hne : ∀ e ∈ es, cmp k e.1 ≠ .eq) :
    lookupA cmp k (insertA cmp k v es) = some (k, v) := by
  induction es with
  | nil => simp [insertA, lookupA, law.refl_eq]
  | cons a es ih =>
      by_cases ha : cmp k a.1 = .lt
      · simp [insertA, ha, lookupA, law.refl_eq]
      · rw [insertA, if_neg ha, lookupA,
          if_neg (hne a (List.mem_cons_self _ _))]
        exact ih (fun e he => hne e (List.mem_cons_of_mem _ he))

theorem removeA_skip (cmp : Cmp K) (k : K) {es₁ : List (K × V)}
    (h : ∀ e ∈ es₁, cmp k e.1 ≠ .eq) (es₂ : List (K × V)) :
    removeA cmp k (es₁ ++ es₂) = es₁ ++ removeA cmp k es₂ := by
  induction es₁ with
  | nil => simp
  | cons e es ih =>
      have ih' := ih (fun e' he' => h e' (List.mem_cons_of_mem _ he'))
      simp only [List.cons_append, removeA,
        if_neg (h e (List.mem_cons_self _ _))]
      exact congrArg (List.cons e) ih'

theorem removeA_sublist (cmp : Cmp K) (k : K) (es : List (K × V)) :
    List.Sublist (removeA cmp k es) es := by
  induction es with
  | nil => exact List.Sublist.refl _
  | cons e es ih =>
      by_cases h : cmp k e.1 = .eq
      · rw [removeA, if_pos h]
        exact List.sublist_cons_self _ _
      · rw [removeA, if_neg h]
        exact ih.cons₂ e

theorem removeA_of_none {cmp : Cmp K} {k : K} {es : List (K × V)}
    (h : lookupA cmp k es = none) : removeA cmp k es = es := by
  induction es with
  | nil => rfl
  | cons e es ih =>
      rw [lookupA_eq_none] at h
      rw [removeA, if_neg (h e (List.mem_cons_self _ _))]
      rw [ih (lookupA_eq_none.2 (fun e' he' => h e' (List.mem_cons_of_mem _ he')))]

theorem updateA_skip (cmp : Cmp K) (k : K) (v : V) {es₁ : List (K × V)}
    (h : ∀ e ∈ es₁, cmp k e.1 ≠ .eq) (es₂ : List (K × V)) :
    updateA cmp k v (es₁ ++ es₂) = es₁ ++ updateA cmp k v es₂ := by
  induction es₁ with
  | nil => simp
  | cons e es ih =>
      have ih' := ih (fun e' he' => h e' (List.mem_cons_of_mem _ he'))
      simp only [List.cons_append, updateA,
        if_neg (h e (List.mem_cons_self _ _))]
      exact congrArg (List.cons e) ih'

theorem updateA_of_none {cmp : Cmp K} {k : K} {v : V} {es : List (K × V)}
    (h : lookupA cmp k es = none) : updateA cmp k v es = es := by
  induction es with
  | nil => rfl
  | cons e es ih =>
      rw [lookupA_eq_none] at h
      rw [updateA, if_neg (h e (List.mem_cons_self _ _))]
      rw [ih (lookupA_eq_none.2 (fun e' he' => h e' (List.mem_cons_of_mem _ he')))]

theorem lookupA_updateA_self {cmp : Cmp K} (law : LawCmp cmp) {k : K} {v : V}
    {es : List (K × V)} {e : K × V} (h : lookupA cmp k es = some e) :
    lookupA cmp k (updateA cmp k v es) = some (k, v) := by
  induction es with
  | nil => simp [lookupA] at h
  | cons a es ih =>
      by_cases ha : cmp k a.1 = .eq
      · rw [updateA, if_pos ha, lookupA, if_pos (law.refl_eq k)]
      · rw [updateA, if_neg ha, lookupA, if_neg ha]
        rw [lookupA, if_neg ha] at h
        exact ih h

theorem mem_updateA {cmp : Cmp K} {k : K} {v : V} {es : List (K × V)}
    {e : K × V} (h : e ∈ updateA cmp k v es) :
    e ∈ es ∨ (e = (k, v) ∧ ∃ a ∈ es, cmp k a.1 = .eq) := by
  induction es with
  | nil => simp [updateA] at h
  | cons a es ih =>
      by_cases ha : cmp k a.1 = .eq
      · rw [updateA, if_pos ha] at h
        rcases List.mem_cons.1 h with rfl | h
        · exact Or.inr ⟨rfl, a, List.mem_cons_self _ _, ha⟩
        · exact Or.inl (List.mem_cons_of_mem _ h)
      · rw [updateA, if_neg ha] at h
        rcases List.mem_cons.1 h with rfl | h
        · exact Or.inl (List.mem_cons_self _ _)
        · rcases ih h with h' | ⟨rfl, w, hw, hweq⟩
          · exact Or.inl (List.mem_cons_of_mem _ h')
          · exact Or.inr ⟨rfl, w, List.mem_cons_of_mem _ hw, hweq⟩

theorem lookupA_append_right_none {cmp : Cmp K} {k : K}
    {es₁ es₂ : List (K × V)} (h : lookupA cmp k es₂ = none) :
    lookupA cmp k (es₁ ++ es₂) = lookupA cmp k es₁ := by
  rw [lookupA_append]
  cases hl : lookupA cmp k es₁ <;> simp [h]

theorem lookupA_append_left_none {cmp : Cmp K} {k : K}
    {es₁ es₂ : List (K × V)} (h : lookupA cmp k es₁ = none) :
    lookupA cmp k (es₁ ++ es₂) = lookupA cmp k es₂ := by
  rw [lookupA_append, h]

/-- Keys all above `nk` cannot match a search key at or below `nk`. -/
theorem lookupA_none_of_keys_gt {cmp : Cmp K} (law : LawCmp cmp) {k nk : K}
    {es : List (K × V)} (hc : cmp k nk = .lt ∨ cmp k nk = .eq)
    (hall : ∀ e ∈ es, cmp nk e.1 = .lt) : lookupA cmp k es = none := by
  rw [lookupA_eq_none]
  intro e he
  have hx : cmp k e.1 = .lt := by
    rcases hc with hc | hc
    · exact law.lt_trans hc (hall e he)
    · exact law.lt_of_eq_of_lt hc (hall e he)
  exact ordNe_eq_of_lt hx

/-- Keys all below `nk` cannot match a search key at or above `nk`. -/
theorem lookupA_none_of_keys_lt {cmp : Cmp K} (law : LawCmp cmp) {k nk : K}
    {es : List (K × V)} (hc : cmp k nk = .gt ∨ cmp k nk = .eq)
    (hall : ∀ e ∈ es, cmp e.1 nk = .lt) : lookupA cmp k es = none := by
  rw [lookupA_eq_none]
  intro e he
  have hx : cmp k e.1 = .gt := by
    rw [law.gt_iff_lt]
    rcases hc with hc | hc
    · exact law.lt_trans (hall e he) ((law.gt_iff_lt k nk).1 hc)
    · have hk : k = nk := (law.eq_iff k nk).1 hc
      exact hk ▸ hall e he
  exact ordNe_eq_of_gt hx

theorem updateA_append_right_none {cmp : Cmp K} {k : K} {v : V}
    {es₂ : List (K × V)} (h : lookupA cmp k es₂ = none)
    (es₁ : List (K × V)) :
    updateA cmp k v (es₁ ++ es₂) = updateA cmp k v es₁ ++ es₂ := by
  induction es₁ with
  | nil =>
      simp only [List.nil_append, updateA]
      exact updateA_of_none h
  | cons e es ih =>
      by_cases he : cmp k e.1 = .eq
      · simp only [List.cons_append, updateA, if_pos he]
        rfl
      · simp only [List.cons_append, updateA, if_neg he]
        exact congrArg (List.cons e) ih

theorem sortedE_updateA {cmp : Cmp K} (law : LawCmp cmp) {k : K} {v : V}
    {es : List (K × V)} (hs : sortedE cmp es) :
    sortedE cmp (updateA cmp k v es) := by
  induction es with
  | nil => simp [updateA, sortedE]
  | cons a es ih =>
      rw [sortedE, List.pairwise_cons] at hs
      by_cases ha : cmp k a.1 = .eq
      · rw [updateA, if_pos ha, sortedE, List.pairwise_cons]
        have hk : k = a.1 := (law.eq_iff k a.1).1 ha
        exact ⟨fun e he => hk ▸ hs.1 e he, hs.2⟩
      · rw [updateA, if_neg ha, sortedE, List.pairwise_cons]
        refine ⟨?_, ih hs.2⟩
        intro e he
        rcases mem_updateA he with he' | ⟨rfl, w, hw, hweq⟩
        · exact hs.1 e he'
        · have : k = w.1 := (law.eq_iff k w.1).1 hweq
          exact this ▸ hs.1 w hw

theorem removeA_append_right_none {cmp : Cmp K} {k : K}
    {es₂ : List (K × V)} (h : lookupA cmp k es₂ = none)
    (es₁ : List (K × V)) :
    removeA cmp k (es₁ ++ es₂) = removeA cmp k es₁ ++ es₂ := by
  induction es₁ with
  | nil =>
      simp only [List.nil_append, removeA]
      exact removeA_of_none h
  | cons e es ih =>
      by_cases he : cmp k e.1 = .eq
      · simp only [List.cons_append, removeA, if_pos he]
        rfl
      · simp only [List.cons_append, removeA, if_neg he]
        exact congrArg (List.cons e) ih

/-! ## The descent operations against the association-list model -/

/-- A found handle carries a comparator-equal key. -/
theorem getNodeT_key {cmp : Cmp K} {k : K} :
    ∀ {t h : Tree K V}, getNodeT cmp k t = some h →
      ∃ nk, h.keyOf = some nk ∧ cmp k nk = .eq := by
  intro t
  induction t with
  | nil => intro h hf; exact absurd hf (by simp [getNodeT])
  | node nk nv o l r d c b ihl ihr =>
      intro h hf
      rw [getNodeT] at hf
      cases hc : cmp k nk with
      | lt => rw [hc] at hf; exact ihl hf
      | gt => rw [hc] at hf; exact ihr hf
      | eq =>
          rw [hc] at hf
          cases hf
          exact ⟨nk, rfl, hc⟩

/-- `getNode` finds exactly the comparator-equal entry of a BST: its
key/value pair is the association-list lookup of the in-order sequence. -/
theorem getNodeT_lookup {cmp : Cmp K} (law : LawCmp cmp) (k : K) :
    ∀ {t : Tree K V}, BST cmp t →
      (getNodeT cmp k t).bind (fun h =>
          (h.keyOf.bind (fun nk => h.valOf.map (fun nv => (nk, nv))))) =
        lookupA cmp k t.entries := by
  intro t
  induction t with
  | nil => intro _; rfl
  | node nk nv o l r d c b ihl ihr =>
      rintro ⟨hl, hr, bl, br⟩
      have hrlt : ∀ e ∈ r.entries, cmp nk e.1 = .lt := fun e he =>
        (law.gt_iff_lt e.1 nk).1 (hr e.1 (Tree.mem_keys_of_mem_entries he))
      have hllt : ∀ e ∈ l.entries, cmp e.1 nk = .lt := fun e he =>
        hl e.1 (Tree.mem_keys_of_mem_entries he)
      rw [getNodeT, Tree.entries]
      cases hc : cmp k nk with
      | lt =>
          have h2 : lookupA cmp k ((nk, nv) :: r.entries) = none := by
            rw [lookupA, if_neg (ordNe_eq_of_lt hc)]
            exact lookupA_none_of_keys_gt law (Or.inl hc) hrlt
          rw [lookupA_append_right_none h2]
          exact ihl bl
      | gt =>
          have h1 : lookupA cmp k l.entries = none :=
            lookupA_none_of_keys_lt law (Or.inl hc) hllt
          rw [lookupA_append_left_none h1, lookupA,
            if_neg (ordNe_eq_of_gt hc)]
          exact ihr br
      | eq =>
          have h1 : lookupA cmp k l.entries = none :=
            lookupA_none_of_keys_lt law (Or.inr hc) hllt
          rw [lookupA_append_left_none h1, lookupA, if_pos hc]
          rfl

/-- `get` (the value of the found handle) is the association-list lookup. -/
theorem getT_lookup {cmp : Cmp K} (law : LawCmp cmp) (k : K) {t : Tree K V}
    (hb : BST cmp t) :
    getT cmp k t = (lookupA cmp k t.entries).map Prod.snd := by
  have h := getNodeT_lookup law k hb
  rw [← h]
  unfold getT
  cases hf : getNodeT cmp k t with
  | none => rfl
  | some h' =>
      rcases getNodeT_key hf with ⟨nk, hk, _⟩
      cases h' with
      | nil => exact absurd hk (by simp [Tree.keyOf])
      | node _ _ _ _ _ _ _ _ => rfl

/-- The in-place key/value overwrite reaches exactly the comparator-equal
entry of a BST. -/
theorem writeKV_entries {cmp : Cmp K} (law : LawCmp cmp) (k : K) (v : V) :
    ∀ {t : Tree K V}, BST cmp t →
      (writeKV cmp k v t).entries = updateA cmp k v t.entries := by
  intro t
  induction t with
  | nil => intro _; rfl
  | node nk nv o l r d c b ihl ihr =>
      rintro ⟨hl, hr, bl, br⟩
      have hrlt : ∀ e ∈ r.entries, cmp nk e.1 = .lt := fun e he =>
        (law.gt_iff_lt e.1 nk).1 (hr e.1 (Tree.mem_keys_of_mem_entries he))
      have hllt : ∀ e ∈ l.entries, cmp e.1 nk = .lt := fun e he =>
        hl e.1 (Tree.mem_keys_of_mem_entries he)
      rw [writeKV, Tree.entries]
      cases hc : cmp k nk with
      | lt =>
          have h2 : lookupA cmp k ((nk, nv) :: r.entries) = none := by
            rw [lookupA, if_neg (ordNe_eq_of_lt hc)]
            exact lookupA_none_of_keys_gt law (Or.inl hc) hrlt
          rw [updateA_append_right_none h2, Tree.entries, ihl bl]
      | gt =>
          have h1 : ∀ e ∈ l.entries, cmp k e.1 ≠ .eq := by
            intro e he
            exact (lookupA_eq_none.1
              (lookupA_none_of_keys_lt law (Or.inl hc) hllt)) e he
          rw [updateA_skip cmp k v h1, Tree.entries, updateA,
            if_neg (ordNe_eq_of_gt hc), ihr br]
      | eq =>
          have h1 : ∀ e ∈ l.entries, cmp k e.1 ≠ .eq := by
            intro e he
            exact (lookupA_eq_none.1
              (lookupA_none_of_keys_lt law (Or.inr hc) hllt)) e he
          rw [updateA_skip cmp k v h1, Tree.entries, updateA, if_pos hc]

/-- The full behaviour of `_getNodeOrCompute` on a BST: the `compute` thunk
runs exactly once iff the key is absent, the previously stored value is
reported iff the key is present, and the in-order entry sequence is
unchanged (present) or gains the new entry at its sorted position
(absent). -/
theorem getNodeOrComputeRec_spec {cmp : Cmp K} (law : LawCmp cmp)
    (mid : Nat) (k : K) (v : V) :
    ∀ {t : Tree K V}, BST cmp t →
      (getNodeOrComputeRec cmp mid k v t).2.1 =
          (lookupA cmp k t.entries).map Prod.snd ∧
      (getNodeOrComputeRec cmp mid k v t).2.2 =
          (if (lookupA cmp k t.entries).isSome then 0 else 1) ∧
      (getNodeOrComputeRec cmp mid k v t).1.entries =
          (if (lookupA cmp k t.entries).isSome then t.entries
            else insertA cmp k v t.entries) := by
  intro t
  induction t with
  | nil =>
      intro _
      refine ⟨rfl, rfl, ?_⟩
      rfl
  | node nk nv o l r d c b ihl ihr =>
      rintro ⟨hl, hr, bl, br⟩
      have hrlt : ∀ e ∈ r.entries, cmp nk e.1 = .lt := fun e he =>
        (law.gt_iff_lt e.1 nk).1 (hr e.1 (Tree.mem_keys_of_mem_entries he))
      have hllt : ∀ e ∈ l.entries, cmp e.1 nk = .lt := fun e he =>
        hl e.1 (Tree.mem_keys_of_mem_entries he)
      rw [getNodeOrComputeRec, Tree.entries]
      cases hc : cmp k nk with
      | lt =>
          have h2 : lookupA cmp k ((nk, nv) :: r.entries) = none := by
            rw [lookupA, if_neg (ordNe_eq_of_lt hc)]
            exact lookupA_none_of_keys_gt law (Or.inl hc) hrlt
          obtain ⟨ih1, ih2, ih3⟩ := ihl bl
          rw [lookupA_append_right_none h2]
          refine ⟨ih1, ih2, ?_⟩
          rw [Tree.entries_balance, Tree.entries_update, Tree.entries, ih3]
          by_cases hf : (lookupA cmp k l.entries).isSome
          · rw [if_pos hf, if_pos hf]
          · rw [if_neg hf, if_neg hf,
              insertA_append_lt cmp k v hc l.entries r.entries]
      | gt =>
          have h1 : lookupA cmp k l.entries = none :=
            lookupA_none_of_keys_lt law (Or.inl hc) hllt
          have h1' : ∀ e ∈ l.entries, cmp k e.1 ≠ .eq := lookupA_eq_none.1 h1
          obtain ⟨ih1, ih2, ih3⟩ := ihr br
          rw [lookupA_append_left_none h1, lookupA,
            if_neg (ordNe_eq_of_gt hc)]
          refine ⟨ih1, ih2, ?_⟩
          rw [Tree.entries_balance, Tree.entries_update, Tree.entries, ih3]
          by_cases hf : (lookupA cmp k r.entries).isSome
          · rw [if_pos hf, if_pos hf]
          · rw [if_neg hf, if_neg hf]
            have hnlt : ∀ e ∈ l.entries ++ [(nk, nv)], cmp k e.1 ≠ .lt := by
              intro e he
              rcases List.mem_append.1 he with he | he
              · have : cmp e.1 nk = .lt := hllt e he
                have : cmp k e.1 = .gt :=
                  law.gt_trans hc ((law.gt_iff_lt _ _).2 this)
                exact ordNe_lt_of_gt this
              · rw [List.mem_singleton.1 he]
                exact ordNe_lt_of_gt hc
            have := insertA_skip cmp k v hnlt r.entries
            simpa using this.symm
      | eq =>
          have h1 : lookupA cmp k l.entries = none :=
            lookupA_none_of_keys_lt law (Or.inr hc) hllt
          rw [lookupA_append_left_none h1, lookupA, if_pos hc]
          refine ⟨rfl, rfl, ?_⟩
          rfl

/-- `_deleteSmallestNode` always works on the head of the in-order entry
sequence: its condition is consulted exactly once, on the head entry, and
the entry sequence loses its head exactly when the condition accepts.  (No
order assumptions are needed: the walk is purely structural.) -/
theorem deleteSmallestRec_spec (cond : K → V → Bool) :
    ∀ {t : Tree K V} {e : K × V} {rest : List (K × V)},
      t.entries = e :: rest →
      (deleteSmallestRec cond t).1.entries =
          (if cond e.1 e.2 then rest else e :: rest) ∧
      (deleteSmallestRec cond t).2.1 =
          (if cond e.1 e.2 then some e else none) ∧
      (deleteSmallestRec cond t).2.2 = 1 := by
  intro t
  induction t with
  | nil => intro e rest h; exact absurd h (by simp [Tree.entries])
  | node k v o l r d c b ihl ihr =>
      intro e rest h
      cases l with
      | nil =>
          rw [Tree.entries, Tree.entries, List.nil_append] at h
          injection h with h1 h2
          subst h2
          cases h1
          by_cases hcond : cond k v
          · simp [deleteSmallestRec, Tree.entries, hcond]
          · simp [deleteSmallestRec, Tree.entries, hcond]
      | node lk lv lo ll lr ld lc lb =>
          rw [Tree.entries] at h
          cases hel : (Tree.node lk lv lo ll lr ld lc lb).entries with
          | nil => exact absurd hel (Tree.entries_ne_nil _ _ _ _ _ _ _ _)
          | cons e0 rest0 =>
              rw [hel, List.cons_append] at h
              injection h with h1 h2
              subst h1
              obtain ⟨ih1, ih2, ih3⟩ := ihl hel
              rw [deleteSmallestRec]
              refine ⟨?_, ih2, ih3⟩
              rw [Tree.entries_balance, Tree.entries_update, Tree.entries, ih1]
              by_cases hcond : cond e0.1 e0.2
              · rw [if_pos hcond, if_pos hcond, ← h2]
              · rw [if_neg hcond, if_neg hcond, ← h2, List.cons_append]

/-- `_deleteLargestNode` always works on the last entry of the in-order
sequence, dropping it exactly when the condition accepts. -/
theorem deleteLargestRec_spec (cond : K → V → Bool) :
    ∀ {t : Tree K V} {e : K × V},
      t.entries.getLast? = some e →
      (deleteLargestRec cond t).1.entries =
          (if cond e.1 e.2 then t.entries.dropLast else t.entries) ∧
      (deleteLargestRec cond t).2.1 =
          (if cond e.1 e.2 then some e else none) ∧
      (deleteLargestRec cond t).2.2 = 1 := by
  intro t
  induction t with
  | nil => intro e h; exact absurd h (by simp [Tree.entries])
  | node k v o l r d c b ihl ihr =>
      intro e h
      cases r with
      | nil =>
          simp only [Tree.entries] at h ⊢
          rw [List.getLast?_concat] at h
          injection h with h1
          cases h1
          by_cases hcond : cond k v
          · simp [deleteLargestRec, Tree.entries, hcond, List.dropLast_concat]
          · simp [deleteLargestRec, Tree.entries, hcond]
      | node rk rv ro rl rr rd rc rb =>
          rw [Tree.entries, List.getLast?_append_cons] at h
          cases her : (Tree.node rk rv ro rl rr rd rc rb).entries with
          | nil => exact absurd her (Tree.entries_ne_nil _ _ _ _ _ _ _ _)
          | cons e0 rest0 =>
              rw [her, List.getLast?_cons_cons] at h
              have h' : (Tree.node rk rv ro rl rr rd rc rb).entries.getLast?
                  = some e := by rw [her]; exact h
              obtain ⟨ih1, ih2, ih3⟩ := ihr h'
              rw [deleteLargestRec]
              refine ⟨?_, ih2, ih3⟩
              rw [Tree.entries_balance, Tree.entries_update, Tree.entries, ih1,
                her]
              by_cases hcond : cond e.1 e.2
              · rw [if_pos hcond, if_pos hcond, Tree.entries, her,
                  List.dropLast_append_cons, List.dropLast_cons₂]
              · rw [if_neg hcond, if_neg hcond, Tree.entries, her]

/-- The full behaviour of `_deleteNode` on a BST: nothing happens (beyond
ancestor cache refresh and rebalancing, invisible to the entry sequence)
when the key is absent; when present, the `condition` is consulted exactly
once, on the matching entry, and the entry leaves the in-order sequence
exactly when the condition accepts. -/
theorem deleteNodeRec_spec {cmp : Cmp K} (law : LawCmp cmp)
    (cond : K → V → Bool) (k : K) :
    ∀ {t : Tree K V}, BST cmp t →
      (lookupA cmp k t.entries = none →
        (deleteNodeRec cmp cond k t).1.entries = t.entries ∧
        (deleteNodeRec cmp cond k t).2.1 = none ∧
        (deleteNodeRec cmp cond k t).2.2 = 0) ∧
      (∀ e, lookupA cmp k t.entries = some e →
        (deleteNodeRec cmp cond k t).2.2 = 1 ∧
        (cond e.1 e.2 = true →
          (deleteNodeRec cmp cond k t).1.entries = removeA cmp k t.entries ∧
          (deleteNodeRec cmp cond k t).2.1 = some e) ∧
        (cond e.1 e.2 = false →
          (deleteNodeRec cmp cond k t).1.entries = t.entries ∧
          (deleteNodeRec cmp cond k t).2.1 = none)) := by
  intro t
  induction t with
  | nil =>
      intro _
      constructor
      · intro _
        exact ⟨rfl, rfl, rfl⟩
      · intro e he
        exact absurd he (by simp [Tree.entries, lookupA])
  | node nk nv o l r d c b ihl ihr =>
      rintro ⟨hl, hr, bl, br⟩
      have hrlt : ∀ e ∈ r.entries, cmp nk e.1 = .lt := fun e he =>
        (law.gt_iff_lt e.1 nk).1 (hr e.1 (Tree.mem_keys_of_mem_entries he))
      have hllt : ∀ e ∈ l.entries, cmp e.1 nk = .lt := fun e he =>
        hl e.1 (Tree.mem_keys_of_mem_entries he)
      rw [Tree.entries]
      cases hc : cmp k nk with
      | lt =>
          have h2 : lookupA cmp k ((nk, nv) :: r.entries) = none := by
            rw [lookupA, if_neg (ordNe_eq_of_lt hc)]
            exact lookupA_none_of_keys_gt law (Or.inl hc) hrlt
          obtain ⟨ihn, ihs⟩ := ihl bl
          simp only [deleteNodeRec, hc]
          rw [lookupA_append_right_none h2]
          constructor
          · intro hnone
            obtain ⟨e1, e2, e3⟩ := ihn hnone
            refine ⟨?_, e2, e3⟩
            rw [Tree.entries_balance, Tree.entries_update, Tree.entries, e1]
          · intro e he
            obtain ⟨c1, cT, cF⟩ := ihs e he
            refine ⟨c1, ?_, ?_⟩
            · intro hcond
              obtain ⟨d1, d2⟩ := cT hcond
              refine ⟨?_, d2⟩
              rw [Tree.entries_balance, Tree.entries_update, Tree.entries, d1,
                removeA_append_right_none h2]
            · intro hcond
              obtain ⟨d1, d2⟩ := cF hcond
              refine ⟨?_, d2⟩
              rw [Tree.entries_balance, Tree.entries_update, Tree.entries, d1]
      | gt =>
          have h1 : lookupA cmp k l.entries = none :=
            lookupA_none_of_keys_lt law (Or.inl hc) hllt
          have h1' : ∀ e ∈ l.entries, cmp k e.1 ≠ .eq := lookupA_eq_none.1 h1
          have hskip : ∀ e ∈ l.entries ++ [(nk, nv)], cmp k e.1 ≠ .eq := by
            intro e he
            rcases List.mem_append.1 he with he | he
            · exact h1' e he
            · rw [List.mem_singleton.1 he]
              exact ordNe_eq_of_gt hc
          obtain ⟨ihn, ihs⟩ := ihr br
          simp only [deleteNodeRec, hc]
          rw [lookupA_append_left_none h1, lookupA,
            if_neg (ordNe_eq_of_gt hc)]
          have hrem : ∀ es : List (K × V),
              removeA cmp k (l.entries ++ (nk, nv) :: es) =
                l.entries ++ (nk, nv) :: removeA cmp k es := by
            intro es
            have := removeA_skip cmp k hskip es
            simpa using this
          constructor
          · intro hnone
            obtain ⟨e1, e2, e3⟩ := ihn hnone
            refine ⟨?_, e2, e3⟩
            rw [Tree.entries_balance, Tree.entries_update, Tree.entries, e1]
          · intro e he
            obtain ⟨c1, cT, cF⟩ := ihs e he
            refine ⟨c1, ?_, ?_⟩
            · intro hcond
              obtain ⟨d1, d2⟩ := cT hcond
              refine ⟨?_, d2⟩
              rw [Tree.entries_balance, Tree.entries_update, Tree.entries, d1,
                hrem]
            · intro hcond
              obtain ⟨d1, d2⟩ := cF hcond
              refine ⟨?_, d2⟩
              rw [Tree.entries_balance, Tree.entries_update, Tree.entries, d1]
      | eq =>
          have h1 : lookupA cmp k l.entries = none :=
            lookupA_none_of_keys_lt law (Or.inr hc) hllt
          have h1' : ∀ e ∈ l.entries, cmp k e.1 ≠ .eq := lookupA_eq_none.1 h1
          rw [lookupA_append_left_none h1, lookupA, if_pos hc]
          constructor
          · intro hnone
            exact absurd hnone (by simp)
          · intro e he
            injection he with he1
            cases he1
            have hremAll : removeA cmp k (l.entries ++ (nk, nv) :: r.entries)
                = l.entries ++ r.entries := by
              rw [removeA_skip cmp k h1' ((nk, nv) :: r.entries), removeA,
                if_pos hc]
            by_cases hcond : cond nk nv
            · simp only [deleteNodeRec, hc, if_pos hcond]
              refine ⟨?_, ?_, ?_⟩
              · cases l with
                | nil =>
                    cases r with
                    | nil => rfl
                    | node rk rv ro rl rr rd rc rb => rfl
                | node lk lv lo ll lr ld lc lb =>
                    cases r with
                    | nil => rfl
                    | node rk rv ro rl rr rd rc rb =>
                        cases hp : (deleteSmallestRec (fun _ _ => true)
                          (Tree.node rk rv ro rl rr rd rc rb)).2.1 <;>
                          simp [hp]
              · intro _
                rw [hremAll]
                cases l with
                | nil =>
                    cases r with
                    | nil => exact ⟨by simp [Tree.entries], rfl⟩
                    | node rk rv ro rl rr rd rc rb =>
                        refine ⟨?_, rfl⟩
                        rw [Tree.entries_balance]
                        simp [Tree.entries]
                | node lk lv lo ll lr ld lc lb =>
                    cases r with
                    | nil =>
                        refine ⟨?_, rfl⟩
                        rw [Tree.entries_balance]
                        simp [Tree.entries]
                    | node rk rv ro rl rr rd rc rb =>
                        cases her : (Tree.node rk rv ro rl rr rd rc rb).entries
                          with
                        | nil =>
                            exact absurd her
                              (Tree.entries_ne_nil _ _ _ _ _ _ _ _)
                        | cons e0 rest0 =>
                            obtain ⟨hp1, hp2, _⟩ :=
                              deleteSmallestRec_spec (fun _ _ => true) her
                            simp only [if_pos] at hp1 hp2
                            refine ⟨?_, ?_⟩
                            · dsimp only
                              rw [hp2]
                              rw [Tree.entries_balance, Tree.entries_update,
                                Tree.entries, hp1]
                            · dsimp only
                              rw [hp2]
              · intro hcf
                exact absurd hcond (by simp [hcf])
            · refine ⟨?_, ?_, ?_⟩
              · simp [deleteNodeRec, hc, hcond]
              · intro hct
                exact absurd hct (by simp [hcond])
              · intro _
                refine ⟨?_, ?_⟩
                · simp [deleteNodeRec, hc, hcond, Tree.entries]
                · simp [deleteNodeRec, hc, hcond]

/-! ## Inversion, re-keying -/

@[simp] theorem depthOf_invertT (t : Tree K V) :
    (invertT t).depthOf = t.depthOf := by
  cases t <;> rfl

theorem entries_invertT (t : Tree K V) :
    (invertT t).entries = t.entries.reverse := by
  induction t with
  | nil => rfl
  | node k v o l r d c b ihl ihr =>
      rw [invertT, Tree.entries, Tree.entries, ihl, ihr, List.reverse_append]
      simp

/-- Two inversions restore children, depth and count everywhere, but leave
every balance factor recomputed from the children's cached depths. -/
theorem invertT_invertT (t : Tree K V) : invertT (invertT t) = recompBF t := by
  induction t with
  | nil => rfl
  | node k v o l r d c b ihl ihr =>
      rw [invertT, invertT, recompBF, ihl, ihr, depthOf_invertT,
        depthOf_invertT]

theorem recompBF_of_consistent :
    ∀ {t : Tree K V}, bfConsistent t = true → recompBF t = t := by
  intro t
  induction t with
  | nil => intro _; rfl
  | node k v o l r d c b ihl ihr =>
      intro h
      rw [bfConsistent] at h
      simp only [Bool.and_eq_true, decide_eq_true_eq] at h
      rw [recompBF, ihl h.1.2, ihr h.2, h.1.1]

/-- Writing back the same key leaves the tree unchanged. -/
theorem writeKeyAt_self {cmp : Cmp K} (law : LawCmp cmp) (k : K) :
    ∀ t : Tree K V, writeKeyAt cmp k k t = t := by
  intro t
  induction t with
  | nil => rfl
  | node nk nv o l r d c b ihl ihr =>
      cases hc : cmp k nk with
      | lt => simp [writeKeyAt, hc, ihl]
      | gt => simp [writeKeyAt, hc, ihr]
      | eq => simp [writeKeyAt, hc, (law.eq_iff k nk).1 hc, law.refl_eq]

/-- `reKey` succeeds exactly when the handle is owned by this map and the
new key is comparator-equal to the current one; on success only the key
field changes, on failure nothing does. -/
theorem reKeyOn_iff {cmp : Cmp K} {mid : Nat} {h : Tree K V} {nk : K} :
    (reKeyOn cmp mid h nk).2 = true ↔
      (h.ownerOf = some mid ∧
        ∃ hk, h.keyOf = some hk ∧ cmp nk hk = .eq) := by
  cases h with
  | nil => simp [reKeyOn, Tree.ownerOf]
  | node k v o l r d c b =>
      rw [reKeyOn]
      by_cases ho : o ≠ some mid
      · simp [ho, Tree.ownerOf, if_pos ho]
      · rw [if_neg ho]
        push_neg at ho
        by_cases hq : cmpNQ (cmp nk k)
        · rw [if_pos hq]
          simp only [cmpNQ, ne_eq, decide_eq_true_eq] at hq
          simp [Tree.ownerOf, Tree.keyOf, ho, hq]
        · rw [if_neg hq]
          simp only [cmpNQ, ne_eq, decide_eq_true_eq, not_not] at hq
          simp [Tree.ownerOf, Tree.keyOf, ho, hq]

theorem reKeyOn_false_frame {cmp : Cmp K} {mid : Nat} {h : Tree K V}
    {nk : K} (hf : (reKeyOn cmp mid h nk).2 = false) :
    (reKeyOn cmp mid h nk).1 = h := by
  cases h with
  | nil => rfl
  | node k v o l r d c b =>
      rw [reKeyOn] at hf ⊢
      by_cases ho : o ≠ some mid
      · rw [if_pos ho]
      · rw [if_neg ho] at hf ⊢
        by_cases hq : cmpNQ (cmp nk k)
        · rw [if_pos hq]
        · rw [if_neg hq] at hf
          exact absurd hf (by simp)

theorem reValueOn_iff {mid : Nat} {h : Tree K V} {nv : V} :
    (reValueOn mid h nv).2 = true ↔ h.ownerOf = some mid := by
  cases h with
  | nil => simp [reValueOn, Tree.ownerOf]
  | node k v o l r d c b =>
      rw [reValueOn]
      by_cases ho : o ≠ some mid
      · simp [Tree.ownerOf, if_pos ho, ho]
      · rw [if_neg ho]
        push_neg at ho
        simp [Tree.ownerOf, ho]

/-! ## The BST invariant is preserved by every operation -/

theorem Tree.eq_nil_of_entries_nil {t : Tree K V} (h : t.entries = []) :
    t = .nil := by
  cases t with
  | nil => rfl
  | node k v o l r d c b => exact absurd h (Tree.entries_ne_nil _ _ _ _ _ _ _ _)

theorem bst_gnocTree {cmp : Cmp K} (law : LawCmp cmp) {t : Tree K V}
    (hb : BST cmp t) (mid : Nat) (k : K) (v : V) :
    BST cmp (getNodeOrComputeRec cmp mid k v t).1 := by
  obtain ⟨g1, g2, g3⟩ := getNodeOrComputeRec_spec law mid k v hb
  rw [bst_iff_sortedE law] at hb ⊢
  rw [g3]
  by_cases hf : (lookupA cmp k t.entries).isSome
  · rw [if_pos hf]; exact hb
  · rw [if_neg hf]
    apply sortedE_insertA law hb
    exact lookupA_eq_none.1 (Option.not_isSome_iff_eq_none.1 hf)

theorem bst_setT {cmp : Cmp K} (law : LawCmp cmp) {t : Tree K V}
    (hb : BST cmp t) (mid : Nat) (k : K) (v : V) (replace : Bool) :
    BST cmp (setT cmp mid t k v replace) := by
  rw [setT]
  cases hf : (getNodeOrComputeRec cmp mid k v t).2.1 with
  | none => exact bst_gnocTree law hb mid k v
  | some w =>
      by_cases hr : replace
      · rw [if_pos hr]
        have hbp : BST cmp (getNodeOrComputeRec cmp mid k v t).1 :=
          bst_gnocTree law hb mid k v
        rw [bst_iff_sortedE law, writeKV_entries law k v hbp]
        exact sortedE_updateA law ((bst_iff_sortedE law _).1 hbp)
      · rw [if_neg hr]
        exact bst_gnocTree law hb mid k v

theorem bst_delTree {cmp : Cmp K} (law : LawCmp cmp) (cond : K → V → Bool)
    (k : K) {t : Tree K V} (hb : BST cmp t) :
    BST cmp (deleteNodeRec cmp cond k t).1 := by
  obtain ⟨hn, hs⟩ := deleteNodeRec_spec law cond k hb
  rw [bst_iff_sortedE law] at hb ⊢
  cases hf : lookupA cmp k t.entries with
  | none => rw [(hn hf).1]; exact hb
  | some e =>
      obtain ⟨_, cT, cF⟩ := hs e hf
      by_cases hcond : cond e.1 e.2
      · rw [(cT hcond).1]
        exact sortedE_sublist (removeA_sublist cmp k t.entries) hb
      · rw [(cF (Bool.eq_false_iff.2 hcond)).1]
        exact hb

theorem bst_delSmallTree {cmp : Cmp K} (law : LawCmp cmp)
    (cond : K → V → Bool) {t : Tree K V} (hb : BST cmp t) :
    BST cmp (deleteSmallestRec cond t).1 := by
  cases he : t.entries with
  | nil =>
      rw [Tree.eq_nil_of_entries_nil he]
      trivial
  | cons e rest =>
      obtain ⟨h1, _, _⟩ := deleteSmallestRec_spec cond he
      rw [bst_iff_sortedE law] at hb ⊢
      rw [h1]
      rw [he] at hb
      by_cases hcond : cond e.1 e.2
      · rw [if_pos hcond]
        exact (sortedE_cons.1 hb).2
      · rw [if_neg hcond]
        exact hb

theorem bst_delLargeTree {cmp : Cmp K} (law : LawCmp cmp)
    (cond : K → V → Bool) {t : Tree K V} (hb : BST cmp t) :
    BST cmp (deleteLargestRec cond t).1 := by
  cases he : t.entries.getLast? with
  | none =>
      rw [Tree.eq_nil_of_entries_nil (List.getLast?_eq_none_iff.1 he)]
      trivial
  | some e =>
      obtain ⟨h1, _, _⟩ := deleteLargestRec_spec cond he
      rw [bst_iff_sortedE law] at hb ⊢
      rw [h1]
      by_cases hcond : cond e.1 e.2
      · rw [if_pos hcond]
        exact sortedE_sublist (List.dropLast_sublist _) hb
      · rw [if_neg hcond]
        exact hb

/-- Reversing the map swaps the comparator's arguments. -/
theorem mcmp_reverse [LinearOrder K] (s : MState K V) (a b : K) :
    mcmp (step s Op.reverse) a b = mcmp s b a := by
  rw [step, mcmp, mcmp]
  cases hf : s.flip
  · rfl
  · rfl

/-- One public mutation preserves the BST invariant with respect to the
map's current comparator. -/
theorem bst_step [LinearOrder K] {s : MState K V}
    (hb : BST (mcmp s) s.root) (op : Op K V) :
    BST (mcmp (step s op)) (step s op).root := by
  have law : LawCmp (mcmp s) := lawCmp_mcmp s
  cases op with
  | set k v replace => exact bst_setT law hb 0 k v replace
  | getOrCompute k v => exact bst_gnocTree law hb 0 k v
  | del k cond => exact bst_delTree law cond k hb
  | delSmallest cond => exact bst_delSmallTree law cond hb
  | delLargest cond => exact bst_delLargeTree law cond hb
  | reKeyByKey k nk =>
      show BST (mcmp _) (step s (Op.reKeyByKey k nk)).root
      rw [step]
      cases hf : getNodeT (mcmp s) k s.root with
      | none => exact hb
      | some h =>
          by_cases hrk : (reKeyOn (mcmp s) 0 h nk).2
          · dsimp only
            rw [if_pos hrk]
            obtain ⟨_, hk, hkeq, hkc⟩ := reKeyOn_iff.1 hrk
            obtain ⟨nk0, hnk0, hnkc⟩ := getNodeT_key hf
            rw [hnk0] at hkeq
            injection hkeq with hkeq
            have hkk : nk = k := by
              have h1 : nk = hk := (law.eq_iff nk hk).1 hkc
              have h2 : k = nk0 := (law.eq_iff k nk0).1 hnkc
              rw [h1, ← hkeq, ← h2]
            rw [hkk, writeKeyAt_self law k]
            exact hb
          · dsimp only
            rw [if_neg hrk]
            exact hb
  | reverse =>
      have hb' := (bst_iff_sortedE law _).1 hb
      rw [bst_iff_sortedE (lawCmp_mcmp _)]
      show sortedE (mcmp (step s Op.reverse)) (invertT s.root).entries
      rw [entries_invertT]
      unfold sortedE at hb' ⊢
      rw [List.pairwise_reverse]
      exact hb'.imp (fun hx => by rw [mcmp_reverse]; exact hx)
  | clear => trivial

/-- Every reachable map state satisfies the BST invariant. -/
theorem bst_run [LinearOrder K] (ops : List (Op K V)) :
    BST (mcmp (run ops)) (run ops).root := by
  suffices h : ∀ s : MState K V, BST (mcmp s) s.root →
      BST (mcmp (ops.foldl step s)) (ops.foldl step s).root by
    exact h empty trivial
  induction ops with
  | nil => intro s hs; exact hs
  | cons op ops ih =>
      intro s hs
      exact ih _ (bst_step hs op)

/-- After `set(key, value)` with replacement, the key maps to the new
value in the entry sequence. -/
theorem setT_lookup {cmp : Cmp K} (law : LawCmp cmp) {t : Tree K V}
    (hb : BST cmp t) (mid : Nat) (k : K) (v : V) :
    lookupA cmp k (setT cmp mid t k v true).entries = some (k, v) := by
  obtain ⟨g1, g2, g3⟩ := getNodeOrComputeRec_spec law mid k v hb
  rw [setT]
  cases hf : (getNodeOrComputeRec cmp mid k v t).2.1 with
  | none =>
      have hlook : lookupA cmp k t.entries = none := by
        rw [hf] at g1
        exact (Option.map_eq_none').1 g1.symm
      dsimp only
      rw [g3, hlook]
      simp only [Option.isSome_none, Bool.false_eq_true, if_false]
      exact lookupA_insertA_self law k v (lookupA_eq_none.1 hlook)
  | some w =>
      have hsome : ∃ e, lookupA cmp k t.entries = some e := by
        rw [hf] at g1
        cases hL : lookupA cmp k t.entries with
        | none => rw [hL] at g1; exact absurd g1.symm (by simp)
        | some e => exact ⟨e, rfl⟩
      obtain ⟨e, he⟩ := hsome
      have hbp : BST cmp (getNodeOrComputeRec cmp mid k v t).1 :=
        bst_gnocTree law hb mid k v
      have hpe : (getNodeOrComputeRec cmp mid k v t).1.entries = t.entries := by
        rw [g3, he]
        rfl
      dsimp only [if_pos]
      rw [if_pos rfl, writeKV_entries law k v hbp, hpe]
      exact lookupA_updateA_self law he

/-! ## Range queries -/

theorem ordNe_gt_of_lt {o : Ordering} (h : o = .lt) : o ≠ .gt := by
  rw [h]; exact fun hc => Ordering.noConfusion hc

theorem minClosed_noBound (cmp : Cmp K) : MinClosed cmp Bnd.noBound := by
  intro x y _ hy
  exact hy

theorem minClosed_key {cmp : Cmp K} (law : LawCmp cmp) (m : K) :
    MinClosed cmp (Bnd.key m) := by
  intro x y hxy hy
  simp only [tooSmallB, cmpLT, decide_eq_true_eq] at hy ⊢
  exact law.lt_trans hxy hy

theorem minClosed_pair {cmp : Cmp K} (law : LawCmp cmp) (m : K)
    (excl : Bool) : MinClosed cmp (Bnd.pair m excl) := by
  intro x y hxy hy
  cases excl with
  | false =>
      simp only [tooSmallB, cmpLT, Bool.false_eq_true, if_false,
        decide_eq_true_eq] at hy ⊢
      exact law.lt_trans hxy hy
  | true =>
      simp only [tooSmallB, cmpLE, if_pos, ne_eq, decide_eq_true_eq] at hy ⊢
      intro hxm
      cases hym : cmp y m with
      | lt => exact (ordNe_gt_of_lt (law.lt_trans hxy hym)) hxm
      | eq =>
          have : y = m := (law.eq_iff y m).1 hym
          rw [this] at hxy
          exact (ordNe_gt_of_lt hxy) hxm
      | gt => exact hy hym

theorem maxClosed_noBound (cmp : Cmp K) : MaxClosed cmp Bnd.noBound := by
  intro x y _ hx
  exact hx

theorem maxClosed_key {cmp : Cmp K} (law : LawCmp cmp) (m : K) :
    MaxClosed cmp (Bnd.key m) := by
  intro x y hxy hx
  simp only [tooBigB, cmpGT, decide_eq_true_eq] at hx ⊢
  exact law.gt_trans ((law.gt_iff_lt y x).2 hxy) hx

theorem maxClosed_pair {cmp : Cmp K} (law : LawCmp cmp) (m : K)
    (excl : Bool) : MaxClosed cmp (Bnd.pair m excl) := by
  intro x y hxy hx
  cases excl with
  | false =>
      simp only [tooBigB, cmpGT, Bool.false_eq_true, if_false,
        decide_eq_true_eq] at hx ⊢
      exact law.gt_trans ((law.gt_iff_lt y x).2 hxy) hx
  | true =>
      simp only [tooBigB, cmpGE, if_pos, ne_eq, decide_eq_true_eq] at hx ⊢
      intro hym
      cases hxm : cmp x m with
      | lt => exact hx hxm
      | eq =>
          have : x = m := (law.eq_iff x m).1 hxm
          rw [this] at hxy
          exact (ordNe_lt_of_gt ((law.gt_iff_lt y m).2 hxy)) hym
      | gt =>
          have h1 : cmp m x = .lt := (law.gt_iff_lt x m).1 hxm
          exact (ordNe_lt_of_gt ((law.gt_iff_lt y m).2
            (law.lt_trans h1 hxy))) hym

/-- Reversed range iteration yields exactly the reverse of the forward
iteration (no order assumptions needed). -/
theorem getRangeRec_rev (cmp : Cmp K) (mn mx : Bnd K) :
    ∀ t : Tree K V,
      getRangeRec cmp mn mx true t =
        (getRangeRec cmp mn mx false t).reverse := by
  intro t
  induction t with
  | nil => rfl
  | node k v o l r d c b ihl ihr =>
      rw [getRangeRec, getRangeRec]
      cases hts : tooSmallB cmp mn k <;> cases htb : tooBigB cmp mx k <;>
        simp [hts, htb, ihl, ihr]

/-- On a BST, with an up-closed `min` bound and a down-closed `max` bound,
the forward range walk yields exactly the in-bounds entries in order. -/
theorem getRangeRec_filter {cmp : Cmp K} (law : LawCmp cmp) {mn mx : Bnd K}
    (hmn : MinClosed cmp mn) (hmx : MaxClosed cmp mx) :
    ∀ {t : Tree K V}, BST cmp t →
      getRangeRec cmp mn mx false t =
        t.entries.filter
          (fun e => !tooSmallB cmp mn e.1 && !tooBigB cmp mx e.1) := by
  intro t
  induction t with
  | nil => intro _; rfl
  | node k v o l r d c b ihl ihr =>
      rintro ⟨hl, hr, bl, br⟩
      rw [getRangeRec, Tree.entries, List.filter_append, List.filter_cons]
      cases hts : tooSmallB cmp mn k <;> cases htb : tooBigB cmp mx k
      · simp only [hts, htb, Bool.not_false, Bool.and_self, if_pos,
          Bool.true_and, ihl bl, ihr br]
        simp
      · have hfr : r.entries.filter
            (fun e => !tooSmallB cmp mn e.1 && !tooBigB cmp mx e.1) = [] := by
          rw [List.filter_eq_nil_iff]
          intro e he
          have hkx : cmp k e.1 = .lt :=
            (law.gt_iff_lt e.1 k).1 (hr e.1 (Tree.mem_keys_of_mem_entries he))
          have : tooBigB cmp mx e.1 = true := hmx k e.1 hkx htb
          simp [this]
        simp only [hts, htb, ihl bl, hfr]
        simp
      · have hfl : l.entries.filter
            (fun e => !tooSmallB cmp mn e.1 && !tooBigB cmp mx e.1) = [] := by
          rw [List.filter_eq_nil_iff]
          intro e he
          have hxk : cmp e.1 k = .lt :=
            hl e.1 (Tree.mem_keys_of_mem_entries he)
          have : tooSmallB cmp mn e.1 = true := hmn e.1 k hxk hts
          simp [this]
        simp only [hts, htb, ihr br, hfl]
        simp
      · have hfr : r.entries.filter
            (fun e => !tooSmallB cmp mn e.1 && !tooBigB cmp mx e.1) = [] := by
          rw [List.filter_eq_nil_iff]
          intro e he
          have hkx : cmp k e.1 = .lt :=
            (law.gt_iff_lt e.1 k).1 (hr e.1 (Tree.mem_keys_of_mem_entries he))
          have : tooBigB cmp mx e.1 = true := hmx k e.1 hkx htb
          simp [this]
        have hfl : l.entries.filter
            (fun e => !tooSmallB cmp mn e.1 && !tooBigB cmp mx e.1) = [] := by
          rw [List.filter_eq_nil_iff]
          intro e he
          have hxk : cmp e.1 k = .lt :=
            hl e.1 (Tree.mem_keys_of_mem_entries he)
          have : tooSmallB cmp mn e.1 = true := hmn e.1 k hxk hts
          simp [this]
        simp only [hts, htb, hfl, hfr]
        simp

@[simp] theorem entries_recompBF (t : Tree K V) :
    (recompBF t).entries = t.entries := by
  induction t with
  | nil => rfl
  | node k v o l r d c b ihl ihr =>
      rw [recompBF, Tree.entries, Tree.entries, ihl, ihr]

/-! ## Concrete example states -/

/-- The map after `set(1,1); set(2,2); set(3,3)` from empty.  The final
insertion left-rotates at the root; the rotation updates the promoted node
before the demoted one, leaving the root's cached depth/count/balance stale
(4, 5 and -2 for a three-node, height-two tree). -/
def ex123 : MState Nat Nat :=
  run [.set 1 1 true, .set 2 2 true, .set 3 3 true]

/-- The map after `set(3,3); set(1,1); set(2,2)` from empty: the classic
left-right ("inside") imbalance, which the single-rotation `balance` step
does not repair. -/
def ex312 : MState Nat Nat :=
  run [.set 3 3 true, .set 1 1 true, .set 2 2 true]

/-- The map after `set(2,2); set(1,1)` from empty (no rotations). -/
def ex21 : MState Nat Nat := run [.set 2 2 true, .set 1 1 true]

/-- A balanced three-node map with consistent caches. -/
def exBal : MState Nat Nat := run [.set 5 5 true, .set 3 3 true, .set 8 8 true]

/-- The spec's seven-key scenario: insert 5, 3, 8, 1, 4, 7, 9 in order. -/
def exBig : MState Nat Nat :=
  run [.set 5 5 true, .set 3 3 true, .set 8 8 true, .set 1 1 true,
    .set 4 4 true, .set 7 7 true, .set 9 9 true]

/-- A successful `reKey` only rewrites the key field of the handle. -/
theorem reKeyOn_true_shape {cmp : Cmp K} {mid : Nat} {h : Tree K V} {nk : K}
    (ht : (reKeyOn cmp mid h nk).2 = true) :
    (reKeyOn cmp mid h nk).1.keyOf = some nk ∧
    (reKeyOn cmp mid h nk).1.valOf = h.valOf ∧
    (reKeyOn cmp mid h nk).1.ownerOf = h.ownerOf := by
  cases h with
  | nil => exact absurd ht (by simp [reKeyOn])
  | node k v o l r d c b =>
      rw [reKeyOn] at ht ⊢
      by_cases ho : o ≠ some mid
      · rw [if_pos ho] at ht
        exact absurd ht (by simp)
      · rw [if_neg ho] at ht ⊢
        by_cases hq : cmpNQ (cmp nk k)
        · rw [if_pos hq] at ht
          exact absurd ht (by simp)
        · rw [if_neg hq]
          exact ⟨rfl, rfl, rfl⟩

/-! ## The claims -/

/-- C1: the claim says every node reachable from the root keeps
`balanceFactor ∈ {-1, 0, 1}` after any sequence of mutations.  The code's
single-rotation `balance` step cannot repair the left-right imbalance of
inserting 3, 1, 2 (the root ends with cached balance factor 3 and true
balance factor 2), and the rotation helpers update the promoted node's
cache from the demoted node's stale depth, so even the all-left sequence
1, 2, 3 leaves the root's cached balance factor at -2.  This theorem
evaluates the code at both failing inputs. -/
theorem C1_balance_invariant_fails :
    bfInvariant ex312.root = false ∧ bfActualInvariant ex312.root = false ∧
    ex312.root.bfOf = 3 ∧
    bfInvariant ex123.root = false ∧ ex123.root.bfOf = -2 := by decide

/-- C2 counterexample: for the (non-monotone) predicate min-bound
`fun k => k == 1` on the key set `{1, 2}` (root 2, left child 1),
`getRange` prunes the left subtree at the root — whose key fails the
predicate — and yields nothing, although the key 1 satisfies both bounds.
So the claim is false for arbitrary predicate bounds. -/
theorem C2_range_counterexample :
    getRangeRec (mcmp ex21) (Bnd.pred (fun k => k == 1)) Bnd.noBound false
        ex21.root = [] ∧
    ex21.root.entries.filter
      (fun e => !tooSmallB (mcmp ex21) (Bnd.pred (fun k => k == 1)) e.1 &&
        !tooBigB (mcmp ex21) Bnd.noBound e.1) = [(1, 1)] := by decide

/-- C2 (amended): for every BST, `getRange` yields exactly the entries
satisfying both bounds, ascending (or reversed), provided predicate bounds
are monotone (`min` accepts an up-set, `max` a down-set — automatic for the
absent/bare-key/pair forms); concretely, on the key set
`{1,3,4,5,7,8,9}`, `getRange(3, 7)` yields keys 3,4,5,7 and
`getRange([3,"exclusive"], [7,"exclusive"])` yields 4,5. -/
theorem C2_range_correctness_amended :
    (∀ (K V : Type) (cmp : Cmp K), LawCmp cmp → ∀ mn mx : Bnd K,
      MinClosed cmp mn → MaxClosed cmp mx → ∀ t : Tree K V, BST cmp t →
        getRangeRec cmp mn mx false t =
          t.entries.filter
            (fun e => !tooSmallB cmp mn e.1 && !tooBigB cmp mx e.1) ∧
        getRangeRec cmp mn mx true t =
          (t.entries.filter
            (fun e => !tooSmallB cmp mn e.1 && !tooBigB cmp mx e.1)).reverse ∧
        List.Pairwise (fun a b => cmp a.1 b.1 = Ordering.lt)
          (getRangeRec cmp mn mx false t)) ∧
    getRangeRec (mcmp exBig) (Bnd.key 3) (Bnd.key 7) false exBig.root =
      [(3, 3), (4, 4), (5, 5), (7, 7)] ∧
    getRangeRec (mcmp exBig) (Bnd.pair 3 true) (Bnd.pair 7 true) false
      exBig.root = [(4, 4), (5, 5)] := by
  refine ⟨?_, by decide, by decide⟩
  intro K V cmp law mn mx hmn hmx t hb
  have hf := getRangeRec_filter law hmn hmx hb
  refine ⟨hf, ?_, ?_⟩
  · rw [getRangeRec_rev, hf]
  · rw [hf]
    exact List.Pairwise.sublist (List.filter_sublist _)
      ((bst_iff_sortedE law t).1 hb)

/-- C2 witness: the amended range theorem applied to the spec's concrete
seven-key tree with the inclusive bounds 3 and 7. -/
theorem C2_range_witness :
    getRangeRec (mcmp exBig) (Bnd.key 3) (Bnd.key 7) false exBig.root =
      exBig.root.entries.filter
        (fun e => !tooSmallB (mcmp exBig) (Bnd.key 3) e.1 &&
          !tooBigB (mcmp exBig) (Bnd.key 7) e.1) :=
  (C2_range_correctness_amended.1 Nat Nat (mcmp exBig) (lawCmp_mcmp exBig)
    (Bnd.key 3) (Bnd.key 7) (minClosed_key (lawCmp_mcmp exBig) 3)
    (maxClosed_key (lawCmp_mcmp exBig) 7) exBig.root (bst_run _)).1

/-- C3 counterexample: in the reachable state after `set 3; set 1; set 2`
(whose caches are stale after the unrepaired rotation), `delete(2, always
false)` reports absent and evaluates the condition once, but the walk back
up refreshes the root's cache and *rotates*, so the map is not left
unchanged: the root moves from key 1 to key 3. -/
theorem C3_delete_false_condition_counterexample :
    (deleteNodeRec (mcmp ex312) (fun _ _ => false) 2 ex312.root).2.1 =
        none ∧
    (deleteNodeRec (mcmp ex312) (fun _ _ => false) 2 ex312.root).2.2 = 1 ∧
    (deleteNodeRec (mcmp ex312) (fun _ _ => false) 2 ex312.root).1.keyOf =
      some 3 ∧
    ex312.root.keyOf = some 1 := by decide

/-- C3 (amended): for `delete(key, condition)` on a BST containing the key,
the condition is evaluated exactly once, on the matching entry; when it
returns false the delete reports absent and the map's entry sequence (all
keys and values, in order) is unchanged — though ancestors on the search
path may refresh cached metrics and rebalance. -/
theorem C3_delete_false_condition_amended :
    ∀ (K V : Type) (cmp : Cmp K), LawCmp cmp → ∀ (cond : K → V → Bool)
      (k : K) (t : Tree K V), BST cmp t →
      ∀ e, lookupA cmp k t.entries = some e → cond e.1 e.2 = false →
        (deleteNodeRec cmp cond k t).2.2 = 1 ∧
        (deleteNodeRec cmp cond k t).2.1 = none ∧
        (deleteNodeRec cmp cond k t).1.entries = t.entries := by
  intro K V cmp law cond k t hb e he hcf
  obtain ⟨_, hs⟩ := deleteNodeRec_spec law cond k hb
  obtain ⟨c1, _, cF⟩ := hs e he
  exact ⟨c1, (cF hcf).2, (cF hcf).1⟩

/-- C3 witness: the amended delete theorem applied in the
`set 3; set 1; set 2` state at key 2 with an always-false condition. -/
theorem C3_delete_witness :
    (deleteNodeRec (mcmp ex312) (fun _ _ => false) 2 ex312.root).2.2 = 1 ∧
    (deleteNodeRec (mcmp ex312) (fun _ _ => false) 2 ex312.root).2.1 =
        none ∧
    (deleteNodeRec (mcmp ex312) (fun _ _ => false) 2 ex312.root).1.entries =
      ex312.root.entries :=
  C3_delete_false_condition_amended Nat Nat (mcmp ex312) (lawCmp_mcmp ex312)
    (fun _ _ => false) 2 ex312.root (bst_run _) (2, 2) (by decide) rfl

/-- C4: after every sequence of public mutations from the empty map, every
node reachable from the root satisfies BST order — all keys in its left
subtree compare less than its key and all keys in its right subtree
compare greater, per the map's current comparator. -/
theorem C4_bst_invariant {K V : Type} [LinearOrder K]
    (ops : List (Op K V)) : BST (mcmp (run ops)) (run ops).root :=
  bst_run ops

/-- C5: in every reachable map state, `set(k, v)` with the default
`replace = true` followed by `get(k)` returns `v`. -/
theorem C5_set_get_roundtrip {K V : Type} [LinearOrder K]
    (ops : List (Op K V)) (k : K) (v : V) :
    getT (mcmp (run ops)) k
      (setT (mcmp (run ops)) 0 (run ops).root k v true) = some v := by
  have law := lawCmp_mcmp (run ops)
  have hb := bst_run ops
  have hbs := bst_setT law hb 0 k v true
  rw [getT_lookup law k hbs, setT_lookup law hb 0 k v]
  rfl

/-- C6 counterexample: in the reachable state after `set 3; set 1; set 2`,
`getOrCompute(2, thunk)` finds the key — the thunk is never called and the
stored value 2 is returned — but the ancestors still update and rebalance,
restructuring the tree (the root moves from key 1 to key 3), so "the tree
structure … untouched" is false. -/
theorem C6_getOrCompute_touches_tree :
    (getNodeOrComputeRec (mcmp ex312) 0 2 99 ex312.root).2.2 = 0 ∧
    (getNodeOrComputeRec (mcmp ex312) 0 2 99 ex312.root).2.1 = some 2 ∧
    (getNodeOrComputeRec (mcmp ex312) 0 2 99 ex312.root).1.keyOf = some 3 ∧
    ex312.root.keyOf = some 1 := by decide

/-- C6 (amended): on a BST, `getOrCompute`'s thunk runs exactly once iff
the key is absent (inserting the computed entry at its sorted position);
on a present key the thunk never runs, the stored value is returned, and
the entry sequence is unchanged (though ancestors may refresh caches and
rebalance); `set(k, v, replace := false)` on a present key likewise leaves
the entry sequence — in particular the stored value — unchanged. -/
theorem C6_getOrCompute_amended :
    ∀ (K V : Type) (cmp : Cmp K), LawCmp cmp → ∀ (mid : Nat) (k : K) (v : V)
      (t : Tree K V), BST cmp t →
      (lookupA cmp k t.entries = none →
        (getNodeOrComputeRec cmp mid k v t).2.2 = 1 ∧
        (getNodeOrComputeRec cmp mid k v t).2.1 = none ∧
        (getNodeOrComputeRec cmp mid k v t).1.entries =
          insertA cmp k v t.entries) ∧
      (∀ e, lookupA cmp k t.entries = some e →
        (getNodeOrComputeRec cmp mid k v t).2.2 = 0 ∧
        (getNodeOrComputeRec cmp mid k v t).2.1 = some e.2 ∧
        (getNodeOrComputeRec cmp mid k v t).1.entries = t.entries ∧
        (setT cmp mid t k v false).entries = t.entries) := by
  intro K V cmp law mid k v t hb
  obtain ⟨g1, g2, g3⟩ := getNodeOrComputeRec_spec law mid k v hb
  constructor
  · intro hn
    rw [hn] at g1 g2 g3
    exact ⟨by rw [g2]; rfl, by rw [g1]; rfl, by rw [g3]; rfl⟩
  · intro e he
    rw [he] at g1 g2 g3
    refine ⟨by rw [g2]; rfl, by rw [g1]; rfl, by rw [g3]; rfl, ?_⟩
    rw [setT]
    cases hf : (getNodeOrComputeRec cmp mid k v t).2.1 with
    | none =>
        rw [g1] at hf
        exact absurd hf (by simp)
    | some w =>
        dsimp only
        rw [if_neg (by simp), g3]
        rfl

/-- C6 witness: the amended theorem applied to the `set 3; set 1; set 2`
state at the present key 2. -/
theorem C6_getOrCompute_witness :
    (getNodeOrComputeRec (mcmp ex312) 0 2 99 ex312.root).2.2 = 0 ∧
    (getNodeOrComputeRec (mcmp ex312) 0 2 99 ex312.root).2.1 = some 2 ∧
    (getNodeOrComputeRec (mcmp ex312) 0 2 99 ex312.root).1.entries =
        ex312.root.entries ∧
    (setT (mcmp ex312) 0 ex312.root 2 99 false).entries =
      ex312.root.entries :=
  (C6_getOrCompute_amended Nat Nat (mcmp ex312) (lawCmp_mcmp ex312) 0 2 99
    ex312.root (bst_run _)).2 (2, 2) (by decide)

/-- C7 counterexample: after `set 1; set 2; set 3` the rotation has left
the root's cached balance factor at -2 while its children's cached depths
are both 1; `reverse(); reverse()` recomputes the balance factor from the
children's cached depths, ending at 0, so the original structure is not
restored field-for-field. -/
theorem C7_reverse_involution_counterexample :
    (step (step ex123 Op.reverse) Op.reverse).root.bfOf = 0 ∧
    ex123.root.bfOf = -2 ∧
    (step (step ex123 Op.reverse) Op.reverse).root.keyOf =
      ex123.root.keyOf := by decide

/-- C7 (amended): `reverse(); reverse()` always restores the comparator,
the iteration order, and every node's key, value, links, cached depth and
count; each balance factor however ends recomputed from the children's
cached depths, so the whole map is restored exactly when the cached
balance factors were consistent with the children's cached depths
beforehand. -/
theorem C7_reverse_involution_amended :
    ∀ (K V : Type) [LinearOrder K] (s : MState K V),
      (step (step s Op.reverse) Op.reverse).flip = s.flip ∧
      (step (step s Op.reverse) Op.reverse).root.entries = s.root.entries ∧
      (step (step s Op.reverse) Op.reverse).root = recompBF s.root ∧
      (bfConsistent s.root = true →
        step (step s Op.reverse) Op.reverse = s) := by
  intro K V inst s
  obtain ⟨root, flip⟩ := s
  have hroot : (step (step (MState.mk root flip) Op.reverse)
      Op.reverse).root = recompBF root := by
    show invertT (invertT root) = recompBF root
    exact invertT_invertT root
  refine ⟨by show (!(!flip)) = flip; simp, ?_, hroot, ?_⟩
  · rw [hroot, entries_recompBF]
  · intro hc
    show MState.mk (invertT (invertT root)) (!!flip) = MState.mk root flip
    rw [invertT_invertT, recompBF_of_consistent hc]
    simp

/-- C7 witness: the amended theorem applied to the cache-consistent
balanced state after `set 5; set 3; set 8`: two reversals restore it
exactly. -/
theorem C7_reverse_witness :
    step (step exBal Op.reverse) Op.reverse = exBal :=
  (C7_reverse_involution_amended Nat Nat exBal).2.2.2 (by decide)

/-- C8: `reKey` succeeds (returning true and rewriting only the key field
in place) exactly when the handle's owner is this map and the comparator
reports the new key equal to the current one — otherwise it returns false
with the handle untouched; `reValue` succeeds exactly when the handle's
owner is this map; hence a handle owned by map A always fails against a
map B with a different identity, and an emancipated handle (owner
cleared) always fails.  Both functions are total — they never raise. -/
theorem C8_rekey_revalue_ownership :
    (∀ (K V : Type) (cmp : Cmp K) (mid : Nat) (h : Tree K V) (nk : K)
        (nv : V),
      ((reKeyOn cmp mid h nk).2 = true ↔
        (h.ownerOf = some mid ∧
          ∃ hk, h.keyOf = some hk ∧ cmp nk hk = .eq)) ∧
      ((reKeyOn cmp mid h nk).2 = true →
        (reKeyOn cmp mid h nk).1.keyOf = some nk ∧
        (reKeyOn cmp mid h nk).1.valOf = h.valOf ∧
        (reKeyOn cmp mid h nk).1.ownerOf = h.ownerOf) ∧
      ((reKeyOn cmp mid h nk).2 = false → (reKeyOn cmp mid h nk).1 = h) ∧
      ((reValueOn mid h nv).2 = true ↔ h.ownerOf = some mid)) ∧
    (∀ (K V : Type) (cmp : Cmp K) (ma mb : Nat) (h : Tree K V) (nk : K)
        (nv : V), ma ≠ mb → h.ownerOf = some ma →
      (reKeyOn cmp mb h nk).2 = false ∧ (reValueOn mb h nv).2 = false) ∧
    (∀ (K V : Type) (cmp : Cmp K) (mid : Nat) (h : Tree K V) (nk : K)
        (nv : V), h.ownerOf = none →
      (reKeyOn cmp mid h nk).2 = false ∧
      (reValueOn mid h nv).2 = false) := by
  refine ⟨?_, ?_, ?_⟩
  · intro K V cmp mid h nk nv
    exact ⟨reKeyOn_iff, fun ht => reKeyOn_true_shape ht,
      fun hf => reKeyOn_false_frame hf, reValueOn_iff⟩
  · intro K V cmp ma mb h nk nv hab hoa
    constructor
    · refine Bool.eq_false_iff.2 (fun ht => ?_)
      obtain ⟨ho, _⟩ := reKeyOn_iff.1 ht
      rw [hoa] at ho
      exact hab (Option.some.inj ho)
    · refine Bool.eq_false_iff.2 (fun ht => ?_)
      have ho := reValueOn_iff.1 ht
      rw [hoa] at ho
      exact hab (Option.some.inj ho)
  · intro K V cmp mid h nk nv hnone
    constructor
    · refine Bool.eq_false_iff.2 (fun ht => ?_)
      obtain ⟨ho, _⟩ := reKeyOn_iff.1 ht
      rw [hnone] at ho
      exact Option.noConfusion ho
    · refine Bool.eq_false_iff.2 (fun ht => ?_)
      have ho := reValueOn_iff.1 ht
      rw [hnone] at ho
      exact Option.noConfusion ho

/-- C8 witness: a handle created by map 0 fails `reKey`/`reValue` against
map 1. -/
theorem C8_ownership_witness :
    (reKeyOn (mcmp ex21) 1 (mkNode 5 5 0) 5).2 = false ∧
    (reValueOn 1 (mkNode 5 (5 : Nat) 0) 7).2 = false :=
  C8_rekey_revalue_ownership.2.1 Nat Nat (mcmp ex21) 0 1 (mkNode 5 5 0) 5 7
    (by decide) rfl

/-- C9: every query operation — get, getEntry, getSmallestEntry,
getLargestEntry, getRange, keys, values, entries, default iteration, and
reversed iteration — returns its answer with the map state unchanged.
The source walks perform no assignment, so their embedding is pure and
the frame property holds by construction. -/
theorem C9_queries_pure {K V : Type} [LinearOrder K] (q : Query K V)
    (s : MState K V) : (runQuery q s).2 = s := by
  cases q <;> rfl

/-- C10: `get` is `getEntry(key)?.value` for every map and key; with the
value domain `Option W` (TS `undefined` embedded as `none`), a key stored
with value `none` and an absent key are indistinguishable through the
flattened `get`, while `getEntry` still distinguishes them (a handle
versus absent). -/
theorem C10_get_is_getEntry_value :
    (∀ (K V : Type) (cmp : Cmp K) (k : K) (t : Tree K V),
      getT cmp k t = (getNodeT cmp k t).bind Tree.valOf) ∧
    ((getT (mcmp ex21) 0
        (mkNode 0 (none : Option Nat) 0)).join = none ∧
     (getT (mcmp ex21) 0 (Tree.nil : Tree Nat (Option Nat))).join = none ∧
     getNodeT (mcmp ex21) 0 (mkNode 0 (none : Option Nat) 0) =
        some (mkNode 0 (none : Option Nat) 0) ∧
     getNodeT (mcmp ex21) 0 (Tree.nil : Tree Nat (Option Nat)) = none) := by
  constructor
  · intro K V cmp k t
    rfl
  · refine ⟨by decide, rfl, by decide, rfl⟩

end Garwin
